import Mathlib

/-!
Verification of the KBFS block-retrieval scheduler
(`libkbfs/block_retrieval_queue.go`) and the eventually-consistent quota
usage cache (`libkbfs/quota_usage.go`).

The Go code is shallowly embedded: every lock-protected critical section
(Go mutex `brq.mtx` serializes all registry/heap/counter mutations) becomes
one atomic Lean function on an explicit state; channel sends and block
copies become events appended to an event log; goroutine scheduling becomes
an explicit operation language (`Op`) whose interleavings are all traces of
`runOps`.

Types that the two source files reference but whose definitions live
elsewhere in the repository (the heap comparator `blockRetrievalHeap`, the
`CoalescingContext`, Go's `container/heap` algorithms) are modelled from
the spec, and are marked as such in their doc comments.
-/

set_option autoImplicit false

namespace KBFS

/-! ## Quota usage cache (`quota_usage.go`) -/

/-- Mirror of Go `cachedQuotaUsage`: timestamp plus usage/limit bytes.
Go `time.Time` and `int64` are modelled as `Int` (only compared and copied,
never overflowed by this code). -/
structure cachedQuotaUsage where
  timestamp : Int
  usageBytes : Int
  limitBytes : Int
  deriving DecidableEq, Repr

instance : Inhabited cachedQuotaUsage := ⟨⟨0, 0, 0⟩⟩

/-- Mirror of the `kbfsblock.UsageStat` value carried in a quota info: a
finite map from usage type to a byte count, as an association list.
A missing key reads as 0, like a Go map. -/
structure UsageStat where
  Bytes : List (Nat × Int)
  deriving DecidableEq, Repr

/-- Mirror of the quota info returned by `BlockServer().GetUserQuotaInfo`:
a limit and an optional total-usage stat. -/
structure QuotaInfo where
  Limit : Int
  Total : Option UsageStat
  deriving DecidableEq, Repr

/-- The `kbfsblock.UsageWrite` key (an opaque enum constant of the
repository, not under `src/`; its concrete value is irrelevant here). -/
def UsageWrite : Nat := 1

/-- Go map read `m[k]` with the zero value for missing keys. -/
def lookupBytes (m : List (Nat × Int)) (k : Nat) : Int :=
  match m.find? (fun p => p.1 == k) with
  | some p => p.2
  | none => 0

/-- Mutable state of an `EventuallyConsistentQuotaUsage`: the background
flag and the cached usage. -/
structure ECQUState where
  backgroundInProcess : Bool
  cached : cachedQuotaUsage
  deriving DecidableEq, Repr

/-- Mirror of `EventuallyConsistentQuotaUsage.getAndCache`. The block
server RPC is an external collaborator, so its outcome is a parameter
`server`; `now` is what `config.Clock().Now()` returns after the RPC.
On RPC error the state is returned untouched together with the error; on
success the cache is overwritten with the fresh usage, limit and timestamp. -/
def getAndCache (server : Except Nat QuotaInfo) (now : Int) (q : ECQUState) :
    ECQUState × Except Nat cachedQuotaUsage :=
  match server with
  | .error e => (q, .error e)
  | .ok quotaInfo =>
    let usage : cachedQuotaUsage :=
      { limitBytes := quotaInfo.Limit
        usageBytes :=
          match quotaInfo.Total with
          | some t => lookupBytes t.Bytes UsageWrite
          | none => 0
        timestamp := now }
    ({ q with cached := usage }, .ok usage)

/-- Mirror of `EventuallyConsistentQuotaUsage.Get`. `nowGet` is the clock
reading used to compute the age of the cached data, `nowCache` the one a
blocking `getAndCache` would use. Returns the new state and the Go result
triple `(usageBytes, limitBytes, err)`. The `past > tolerance/2` branch
only flips the CAS flag and spawns a background refresh (a separate,
later event not modelled inside this atomic step), returning stale data. -/
def ECQUGet (server : Except Nat QuotaInfo) (nowGet nowCache tolerance : Int)
    (q : ECQUState) : ECQUState × (Int × Int × Option Nat) :=
  let c := q.cached
  let past := nowGet - c.timestamp
  if tolerance < past then
    match getAndCache server nowCache q with
    | (q', .error e) => (q', (-1, -1, some e))
    | (q', .ok c') => (q', (c'.usageBytes, c'.limitBytes, none))
  else if Int.tdiv tolerance 2 < past then
    (if q.backgroundInProcess then q else { q with backgroundInProcess := true },
     (c.usageBytes, c.limitBytes, none))
  else
    (q, (c.usageBytes, c.limitBytes, none))

/-! ## Block retrieval queue: data model (`block_retrieval_queue.go`) -/

/-- The terminal value `io.EOF` used as the shutdown error; `none` models a
nil Go error. -/
def ioEOF : Option Nat := some 0

/-- Mirror of `blockRetrievalRequest`: one consumer's request. `blockVar`
identifies the caller-supplied mutable `Block` target and `doneCh` the
buffered (capacity 1) completion channel created for this request. -/
structure blockRetrievalRequest where
  blockVar : Nat
  doneCh : Nat
  deriving DecidableEq, Repr

/-- Mirror of `blockRetrieval`. `ctxCanceled` models the observable state
of the `CoalescingContext` (modelled from the spec, see `requestIter`):
it is true once every attached request context has ended, which is exactly
when `AddContext` fails with `context.Canceled`. `cancelCalled` records
that `cancelFunc` has been invoked. -/
structure blockRetrieval where
  blockPtr : Nat
  kmd : Nat
  ctxCanceled : Bool
  cancelCalled : Bool
  requests : List blockRetrievalRequest
  index : Int
  priority : Int
  insertionOrder : Nat
  deriving DecidableEq, Repr

instance : Inhabited blockRetrieval :=
  ⟨{ blockPtr := 0, kmd := 0, ctxCanceled := false, cancelCalled := false
     requests := [], index := -1, priority := 0, insertionOrder := 0 }⟩

/-- Observable side effects: a send of a terminal value on a completion
channel, a copy of a fetched block into a caller's target
(`req.block.Set(block)`), and the delivery of a popped retrieval (or nil)
to a waiting worker's private channel. -/
inductive Ev where
  | send (ch : Nat) (v : Option Nat)
  | copy (target : Nat) (blk : Nat)
  | deliver (r : Option Nat)
  deriving DecidableEq, Repr

/-- Retrieval objects live in an append-only store; a retrieval id is its
position. `getR` dereferences an id (out-of-range reads give the default,
and never occur in reachable code paths). -/
def getR (st : List blockRetrieval) (r : Nat) : blockRetrieval :=
  st.getD r default

/-- Overwrite only the heap index of retrieval `r`. -/
def setIdx (st : List blockRetrieval) (r : Nat) (i : Int) : List blockRetrieval :=
  st.set r { getR st r with index := i }

/-! ## The heap (`blockRetrievalHeap` + Go `container/heap`)

The comparator and the index-maintaining `Swap`/`Push`/`Pop` methods of
`blockRetrievalHeap`, and the `container/heap` sift algorithms, are code
this repository uses but that is not under `src/`; they are modelled from
the spec (§4.2: "Total order: priority descending (ties broken by insertion
order ascending) — pure FIFO within equal priority. Supports push,
pop-highest, and fix-after-priority-increase in logarithmic time,
maintaining each element's current index so fix can locate it directly")
together with the documented `container/heap` algorithm (sift-up on push,
swap-root-to-end plus sift-down on pop). -/

/-- Pair of the retrieval store and the heap array of retrieval ids. -/
structure HS where
  st : List blockRetrieval
  arr : List Nat

/-- Modelled from the spec: the heap comparator. `hless st a b` holds when
`a` sorts strictly before `b`: higher priority first, insertion order
ascending within equal priority. -/
def hless (st : List blockRetrieval) (a b : Nat) : Bool :=
  let x := getR st a
  let y := getR st b
  y.priority < x.priority || (x.priority == y.priority && x.insertionOrder < y.insertionOrder)

/-- Modelled from the spec: the heap `Swap`, exchanging positions `i` and
`j` of the array and writing the new positions into the two retrievals'
`index` fields. -/
def hswap (hs : HS) (i j : Nat) : HS :=
  let a := hs.arr.getD i 0
  let b := hs.arr.getD j 0
  { st := setIdx (setIdx hs.st b i) a j
    arr := (hs.arr.set i b).set j a }

/-- Modelled from the spec: `container/heap` sift-up from position `j`.
The structural fuel (`j` strictly decreases to its parent each step, so
`j + 1` steps always suffice) keeps the function kernel-reducible. -/
def upGo : Nat → HS → Nat → HS
  | 0, hs, _ => hs
  | fuel + 1, hs, j =>
    if j = 0 then hs
    else
      if hless hs.st (hs.arr.getD j 0) (hs.arr.getD ((j - 1) / 2) 0) then
        upGo fuel (hswap hs ((j - 1) / 2) j) ((j - 1) / 2)
      else hs

/-- Modelled from the spec: `container/heap` sift-up from position `j`. -/
def up (hs : HS) (j : Nat) : HS := upGo (j + 1) hs j

/-- Modelled from the spec: `container/heap` sift-down from position `i`
within the first `n` positions, with structural fuel (`n - i` strictly
decreases each step). Returns the final resting position (Go's `down`
reports whether it moved, i.e. whether the result exceeds `i`). -/
def downGo : Nat → HS → Nat → Nat → HS × Nat
  | 0, hs, i, _ => (hs, i)
  | fuel + 1, hs, i, n =>
    if 2 * i + 1 < n then
      if 2 * i + 2 < n ∧
          hless hs.st (hs.arr.getD (2 * i + 2) 0) (hs.arr.getD (2 * i + 1) 0) then
        if hless hs.st (hs.arr.getD (2 * i + 2) 0) (hs.arr.getD i 0) then
          downGo fuel (hswap hs i (2 * i + 2)) (2 * i + 2) n
        else (hs, i)
      else
        if hless hs.st (hs.arr.getD (2 * i + 1) 0) (hs.arr.getD i 0) then
          downGo fuel (hswap hs i (2 * i + 1)) (2 * i + 1) n
        else (hs, i)
    else (hs, i)

/-- Modelled from the spec: `container/heap` sift-down. -/
def down (hs : HS) (i n : Nat) : HS × Nat := downGo (n - i) hs i n

/-- Modelled from the spec: `heap.Push` — the element records its index
(the current length), is appended, and sifts up. -/
def heapPush (hs : HS) (r : Nat) : HS :=
  up ⟨setIdx hs.st r (Int.ofNat hs.arr.length), hs.arr ++ [r]⟩ hs.arr.length

/-- Modelled from the spec: `heap.Pop` — swap the root with the last
position, sift the new root down over the shortened range, then remove the
last element, resetting its index to the sentinel `-1`. Returns `none` on
an empty heap (callers guard with `Len() > 0`, exactly `popIfNotEmpty`). -/
def heapPop (hs : HS) : HS × Option Nat :=
  if hs.arr.length = 0 then (hs, none)
  else
    let n := hs.arr.length - 1
    let hs1 := hswap hs 0 n
    let hs2 := (down hs1 0 n).1
    let r := hs2.arr.getD n 0
    (⟨setIdx hs2.st r (-1), hs2.arr.take n⟩, some r)

/-- Modelled from the spec: `heap.Fix` after a priority change at position
`i` — sift down; if the element did not move, sift up. -/
def heapFix (hs : HS) (i : Nat) : HS :=
  let p := down hs i hs.arr.length
  if i < p.2 then p.1 else up p.1 i

/-! ## The registry (`brq.ptrs`, a Go map) -/

/-- Go map lookup `brq.ptrs[ptr]` over an association list. -/
def lookupPtr : List (Nat × Nat) → Nat → Option Nat
  | [], _ => none
  | p :: t, k => if p.1 = k then some p.2 else lookupPtr t k

/-- Go map assignment `brq.ptrs[ptr] = br`: any previous binding for the
key is replaced, so the registry holds at most one retrieval per locator. -/
def insertPtr (l : List (Nat × Nat)) (k v : Nat) : List (Nat × Nat) :=
  l.filter (fun p => p.1 != k) ++ [(k, v)]

/-- Go map deletion `delete(brq.ptrs, k)`. -/
def erasePtr (l : List (Nat × Nat)) (k : Nat) : List (Nat × Nat) :=
  l.filter (fun p => p.1 != k)

/-! ## The queue state and its operations -/

/-- State of one `blockRetrievalQueue` plus the parts of its environment
the code observes: `retrievals` is the append-only store of retrieval
objects (ids are positions), `ptrs` the registry, `arr` the heap array,
`workerSlots` the number of worker response channels currently parked in
`workerQueue` (capacity `numWorkers`), `doneClosed` whether `doneCh` has
been closed, `attempts` the number of `notifyWorker` goroutines spawned
but not yet run, `claimed` the ids delivered to workers (whose owners may
later finalize them), `nextCh` a fresh-channel allocator, and `events` the
log of observable effects. -/
structure brqState where
  numWorkers : Nat
  retrievals : List blockRetrieval
  ptrs : List (Nat × Nat)
  insertionCount : Nat
  arr : List Nat
  workerSlots : Nat
  doneClosed : Bool
  attempts : Nat
  claimed : List Nat
  nextCh : Nat
  events : List Ev
  deriving DecidableEq, Repr

/-- Mirror of `newBlockRetrievalQueue(numWorkers)`. -/
def initState (numWorkers : Nat) : brqState :=
  { numWorkers := numWorkers, retrievals := [], ptrs := [], insertionCount := 0
    arr := [], workerSlots := 0, doneClosed := false, attempts := 0
    claimed := [], nextCh := 0, events := [] }

/-- Append a new `blockRetrievalRequest` (target `bv`, channel `ch`) to
retrieval `rid`: `br.requests = append(br.requests, ...)`. -/
def addReq (st : List blockRetrieval) (rid bv ch : Nat) : List blockRetrieval :=
  st.set rid
    { getR st rid with requests := (getR st rid).requests ++ [⟨bv, ch⟩] }

/-- The common tail of both branches of `Request`'s loop body: allocate the
buffered channel, append the new `blockRetrievalRequest` to the retrieval,
and, when the new priority is strictly higher and the retrieval is still in
the heap (`br.index != -1`), raise the stored priority and `heap.Fix` it in
place. Returns the new state and the channel. -/
def requestTail (s : brqState) (rid : Nat) (priority : Int) (blockVar : Nat) :
    brqState × Nat :=
  let st1 := addReq s.retrievals rid blockVar s.nextCh
  let br := getR st1 rid
  if br.index ≠ -1 ∧ br.priority < priority then
    let hs := heapFix ⟨st1.set rid { br with priority := priority }, s.arr⟩ br.index.toNat
    ({ s with retrievals := hs.st, arr := hs.arr, nextCh := s.nextCh + 1 }, s.nextCh)
  else
    ({ s with retrievals := st1, nextCh := s.nextCh + 1 }, s.nextCh)

/-- One iteration of the retry loop in `Request`, run under the exclusive
lock. Returns `(state, some ch)` when the iteration hit the `return`, and
`(state, none)` for the `continue` of the cancellation-merge race branch.

The `CoalescingContext` is modelled from the spec (it is not under `src/`):
"add-context(context) → fails with a 'already fully canceled' signal if the
aggregate is already done"; the aggregate's done-ness is the retrieval's
`ctxCanceled` flag, flipped by the environment when every attached caller
context has ended. In the no-entry branch a fresh retrieval is created with
the sentinel index, the current insertion counter (a `uint64`, incremented
modulo `2 ^ 64`), registered, pushed, and one `notifyWorker` matching
attempt is scheduled (`attempts + 1`). -/
def requestIter (s : brqState) (priority : Int) (kmd ptr blockVar : Nat) :
    brqState × Option Nat :=
  match lookupPtr s.ptrs ptr with
  | none =>
    let rid := s.retrievals.length
    let br : blockRetrieval :=
      { blockPtr := ptr, kmd := kmd, ctxCanceled := false, cancelCalled := false
        requests := [], index := -1, priority := priority
        insertionOrder := s.insertionCount }
    let hs := heapPush ⟨s.retrievals ++ [br], s.arr⟩ rid
    let s1 : brqState :=
      { s with
        retrievals := hs.st
        arr := hs.arr
        insertionCount := (s.insertionCount + 1) % 2 ^ 64
        ptrs := insertPtr s.ptrs ptr rid
        attempts := s.attempts + 1 }
    let p := requestTail s1 rid priority blockVar
    (p.1, some p.2)
  | some rid =>
    if (getR s.retrievals rid).ctxCanceled then
      ({ s with ptrs := erasePtr s.ptrs (getR s.retrievals rid).blockPtr }, none)
    else
      let p := requestTail s rid priority blockVar
      (p.1, some p.2)

/-- Mirror of `blockRetrievalQueue.Request`. If `doneCh` is already closed
the select returns a fresh channel pre-loaded with `io.EOF` and touches
nothing else. Otherwise the loop body runs; the source comments that it
"will iterate a maximum of 2 times", so a second iteration is unfolded,
with an unreachable fallback returning channel 0. -/
def Request (s : brqState) (priority : Int) (kmd ptr blockVar : Nat) :
    brqState × Nat :=
  if s.doneClosed then
    let ch := s.nextCh
    ({ s with nextCh := ch + 1, events := s.events ++ [.send ch ioEOF] }, ch)
  else
    match requestIter s priority kmd ptr blockVar with
    | (s1, some ch) => (s1, ch)
    | (s1, none) =>
      match requestIter s1 priority kmd ptr blockVar with
      | (s2, some ch) => (s2, ch)
      | (s2, none) => (s2, 0)

/-- Per-waiter effects of `FinalizeRequest`, in waiter list order: when a
block is present, copy it into the waiter's target, then send the terminal
value on the waiter's completion channel. -/
def finalizeEvents (reqs : List blockRetrievalRequest)
    (block err : Option Nat) : List Ev :=
  reqs.flatMap fun r =>
    (match block with
     | some b => [Ev.copy r.blockVar b]
     | none => []) ++ [Ev.send r.doneCh err]

/-- Mirror of `blockRetrievalQueue.FinalizeRequest`: delete the registry
entry at the retrieval's own locator (whatever it currently maps to),
invoke the retrieval's cancel function, then notify every waiter in list
order. The heap is not touched. -/
def FinalizeRequest (s : brqState) (rid : Nat) (block err : Option Nat) :
    brqState :=
  let br := getR s.retrievals rid
  { s with
    ptrs := erasePtr s.ptrs br.blockPtr
    retrievals := s.retrievals.set rid { br with cancelCalled := true }
    events := s.events ++ finalizeEvents br.requests block err }

/-- Mirror of `blockRetrievalQueue.Shutdown`: close `doneCh` unless it is
already closed. The boolean reports whether this call closed it. -/
def Shutdown (s : brqState) : brqState × Bool :=
  if s.doneClosed then (s, false) else ({ s with doneClosed := true }, true)

/-- The `notifyWorker` goroutine taking the `<-brq.doneCh` branch of its
select (enabled once `doneCh` is closed and an attempt is outstanding):
pop one entry via `popIfNotEmpty` and, if any, finalize it immediately
with the shutdown error `io.EOF`. -/
def attemptDrain (s : brqState) : brqState :=
  if s.doneClosed ∧ 0 < s.attempts then
    let s1 := { s with attempts := s.attempts - 1 }
    match heapPop ⟨s1.retrievals, s1.arr⟩ with
    | (hs, some r) =>
      FinalizeRequest { s1 with retrievals := hs.st, arr := hs.arr } r none ioEOF
    | (_, none) => s1
  else s

/-- The `notifyWorker` goroutine taking the `ch := <-brq.workerQueue`
branch (enabled when a worker channel is parked and an attempt is
outstanding): pop via `popIfNotEmpty` and deliver the result — possibly
nil — to the worker's private channel. A delivered retrieval is claimed by
that worker. -/
def attemptMatch (s : brqState) : brqState :=
  if 0 < s.workerSlots ∧ 0 < s.attempts then
    let s1 := { s with attempts := s.attempts - 1, workerSlots := s.workerSlots - 1 }
    let p := heapPop ⟨s1.retrievals, s1.arr⟩
    { s1 with
      retrievals := p.1.st
      arr := p.1.arr
      claimed := s1.claimed ++ p.2.toList
      events := s1.events ++ [.deliver p.2] }
  else s

/-- The operation language: everything the callers, the workers, the
`notifyWorker` goroutines, and the cancellation environment can do to one
queue, at the granularity at which the code serializes them. -/
inductive Op where
  | req (priority : Int) (kmd ptr blockVar : Nat)
  | cancelAll (rid : Nat)
  | workerArrive
  | drain
  | matchWorker
  | finalize (rid : Nat) (block err : Option Nat)
  | shutdown
  deriving DecidableEq, Repr

/-- One interleaving step. `cancelAll` is the environment flipping a
retrieval's coalesced context to fully-canceled (every attached caller
context has ended). `workerArrive` is `WorkOnRequest` parking a private
channel (it blocks when `workerQueue` is full). `finalize` is a worker
finalizing a retrieval it claimed, at most once (the caller contract). -/
def applyOp (s : brqState) : Op → brqState
  | .req p k ptr b => (Request s p k ptr b).1
  | .cancelAll rid =>
      { s with retrievals :=
          s.retrievals.set rid { getR s.retrievals rid with ctxCanceled := true } }
  | .workerArrive =>
      if s.workerSlots < s.numWorkers then
        { s with workerSlots := s.workerSlots + 1 }
      else s
  | .drain => attemptDrain s
  | .matchWorker => attemptMatch s
  | .finalize rid block err =>
      if rid ∈ s.claimed ∧ ¬ (getR s.retrievals rid).cancelCalled then
        FinalizeRequest s rid block err
      else s
  | .shutdown => (Shutdown s).1

/-- Run a trace of operations from a fresh queue. Every reachable state of
the system is `runOps numWorkers ops` for some trace `ops`. -/
def runOps (numWorkers : Nat) (ops : List Op) : brqState :=
  ops.foldl applyOp (initState numWorkers)

/-! ## Heap well-formedness

`ValidH`: every heap entry is a live retrieval id. `HAcc`: the index field
of the retrieval at every heap position records exactly that position —
the property the heap's `Swap`/`Push`/`Pop` maintain so `Fix` can locate
an element directly. -/

def ValidH (hs : HS) : Prop := ∀ x ∈ hs.arr, x < hs.st.length

def HAcc (hs : HS) : Prop :=
  ∀ k, k < hs.arr.length → (getR hs.st (hs.arr.getD k 0)).index = (k : Int)

/-- All fields of a retrieval except the heap index. -/
def noIdx (b : blockRetrieval) :
    Nat × Nat × Bool × Bool × List blockRetrievalRequest × Int × Nat :=
  (b.blockPtr, b.kmd, b.ctxCanceled, b.cancelCalled, b.requests, b.priority, b.insertionOrder)

/-- What one or more heap sift steps do to the pair of store and array:
array and store lengths are unchanged, array membership is unchanged, no
field other than a heap index changes, an index changes only for a current
member of the array and only to a nonnegative position, and accuracy plus
validity are preserved. -/
structure SiftOK (hs hs' : HS) : Prop where
  lenArr : hs'.arr.length = hs.arr.length
  lenSt : hs'.st.length = hs.st.length
  mem : ∀ x, x ∈ hs'.arr ↔ x ∈ hs.arr
  noidx : ∀ x, noIdx (getR hs'.st x) = noIdx (getR hs.st x)
  idx : ∀ x, (getR hs'.st x).index = (getR hs.st x).index ∨
    (x ∈ hs'.arr ∧ 0 ≤ (getR hs'.st x).index)
  accv : HAcc hs ∧ ValidH hs → HAcc hs' ∧ ValidH hs'

/-- The freshly created retrieval of the no-entry branch. -/
def freshBR (s : brqState) (priority : Int) (kmd ptr : Nat) : blockRetrieval :=
  { blockPtr := ptr, kmd := kmd, ctxCanceled := false, cancelCalled := false
    requests := [], index := -1, priority := priority
    insertionOrder := s.insertionCount }

/-- Queue-level well-formedness: the heap pair is valid and accurate, the
registry (a Go map) binds each locator at most once, every registered
retrieval id is live and stores its own locator, and — the amended heap
containment — every registered retrieval whose index is not the sentinel
is present in the heap array. -/
def InvQ (s : brqState) : Prop :=
  ValidH ⟨s.retrievals, s.arr⟩ ∧
  HAcc ⟨s.retrievals, s.arr⟩ ∧
  (s.ptrs.map Prod.fst).Nodup ∧
  (∀ p rid, lookupPtr s.ptrs p = some rid →
    rid < s.retrievals.length ∧ (getR s.retrievals rid).blockPtr = p) ∧
  (∀ p rid, lookupPtr s.ptrs p = some rid →
    (getR s.retrievals rid).index ≠ -1 → rid ∈ s.arr)

/-- The binary-heap ordering invariant maintained by `container/heap`: no
child sorts strictly before its parent. -/
def heapProp (hs : HS) : Prop :=
  ∀ j, j < hs.arr.length → 0 < j →
    hless hs.st (hs.arr.getD j 0) (hs.arr.getD ((j - 1) / 2) 0) = false

instance : Inhabited blockRetrievalRequest := ⟨⟨0, 0⟩⟩

/-- The completion-channel sends among a list of events, in order. -/
def sendsOf (l : List Ev) : List (Nat × Option Nat) :=
  l.filterMap fun e =>
    match e with
    | .send c v => some (c, v)
    | _ => none

/-- Call `Shutdown` `n` times in a row, counting how many of the calls
actually closed the intake channel. -/
def shutdownTimes : Nat → brqState → brqState × Nat
  | 0, s => (s, 0)
  | n + 1, s =>
    ((shutdownTimes n (Shutdown s).1).1,
     (if (Shutdown s).2 then 1 else 0) + (shutdownTimes n (Shutdown s).1).2)

/-- A sequence of `Request` calls on one locator (all attaching). -/
def applyReqs (s : brqState) (k ptr bv : Nat) (ps : List Int) : brqState :=
  ps.foldl (fun t p => (Request t p k ptr bv).1) s

theorem upGo_congr : ∀ (j f1 f2 : Nat) (hs : HS), j < f1 → j < f2 →
    upGo f1 hs j = upGo f2 hs j := by
  intro j
  induction j using Nat.strong_induction_on with
  | _ j IH =>
    intro f1 f2 hs h1 h2
    obtain ⟨g1, rfl⟩ : ∃ g, f1 = g + 1 := ⟨f1 - 1, by omega⟩
    obtain ⟨g2, rfl⟩ : ∃ g, f2 = g + 1 := ⟨f2 - 1, by omega⟩
    show (if j = 0 then hs else _) = (if j = 0 then hs else _)
    by_cases hj : j = 0
    · rw [if_pos hj, if_pos hj]
    · rw [if_neg hj, if_neg hj]
      by_cases hl : hless hs.st (hs.arr.getD j 0) (hs.arr.getD ((j - 1) / 2) 0) = true
      · rw [if_pos hl, if_pos hl]
        exact IH ((j - 1) / 2) (by omega) g1 g2 _ (by omega) (by omega)
      · rw [if_neg hl, if_neg hl]

/-- The unfolding equation for `up`, matching Go's loop body. -/
theorem up_eq (hs : HS) (j : Nat) : up hs j =
    if j = 0 then hs
    else
      if hless hs.st (hs.arr.getD j 0) (hs.arr.getD ((j - 1) / 2) 0) then
        up (hswap hs ((j - 1) / 2) j) ((j - 1) / 2)
      else hs := by
  show upGo (j + 1) hs j = _
  show (if j = 0 then hs else _) = _
  by_cases hj : j = 0
  · rw [if_pos hj, if_pos hj]
  · rw [if_neg hj, if_neg hj]
    by_cases hl : hless hs.st (hs.arr.getD j 0) (hs.arr.getD ((j - 1) / 2) 0) = true
    · rw [if_pos hl, if_pos hl]
      exact upGo_congr ((j - 1) / 2) j ((j - 1) / 2 + 1) _ (by omega) (by omega)
    · rw [if_neg hl, if_neg hl]

theorem downGo_congr : ∀ (d f1 f2 : Nat) (hs : HS) (i n : Nat), n - i = d →
    n - i ≤ f1 → n - i ≤ f2 → downGo f1 hs i n = downGo f2 hs i n := by
  intro d
  induction d using Nat.strong_induction_on with
  | _ d IH =>
    intro f1 f2 hs i n hd h1 h2
    by_cases hg : 2 * i + 1 < n
    · obtain ⟨g1, rfl⟩ : ∃ g, f1 = g + 1 := ⟨f1 - 1, by omega⟩
      obtain ⟨g2, rfl⟩ : ∃ g, f2 = g + 1 := ⟨f2 - 1, by omega⟩
      show (if 2 * i + 1 < n then _ else _) = (if 2 * i + 1 < n then _ else _)
      rw [if_pos hg, if_pos hg]
      by_cases hc1 : 2 * i + 2 < n ∧
          hless hs.st (hs.arr.getD (2 * i + 2) 0) (hs.arr.getD (2 * i + 1) 0) = true
      · rw [if_pos hc1, if_pos hc1]
        by_cases hc2 : hless hs.st (hs.arr.getD (2 * i + 2) 0) (hs.arr.getD i 0) = true
        · rw [if_pos hc2, if_pos hc2]
          exact IH (n - (2 * i + 2)) (by omega) g1 g2 _ _ n rfl (by omega) (by omega)
        · rw [if_neg hc2, if_neg hc2]
      · rw [if_neg hc1, if_neg hc1]
        by_cases hc2 : hless hs.st (hs.arr.getD (2 * i + 1) 0) (hs.arr.getD i 0) = true
        · rw [if_pos hc2, if_pos hc2]
          exact IH (n - (2 * i + 1)) (by omega) g1 g2 _ _ n rfl (by omega) (by omega)
        · rw [if_neg hc2, if_neg hc2]
    · cases f1 with
      | zero =>
        cases f2 with
        | zero => rfl
        | succ g2 =>
          show (hs, i) = (if 2 * i + 1 < n then _ else (hs, i))
          rw [if_neg hg]
      | succ g1 =>
        cases f2 with
        | zero =>
          show (if 2 * i + 1 < n then _ else (hs, i)) = (hs, i)
          rw [if_neg hg]
        | succ g2 =>
          show (if 2 * i + 1 < n then _ else (hs, i)) =
            (if 2 * i + 1 < n then _ else (hs, i))
          rw [if_neg hg, if_neg hg]

/-- The unfolding equation for `down`, matching Go's loop body. -/
theorem down_eq (hs : HS) (i n : Nat) : down hs i n =
    if 2 * i + 1 < n then
      if 2 * i + 2 < n ∧
          hless hs.st (hs.arr.getD (2 * i + 2) 0) (hs.arr.getD (2 * i + 1) 0) then
        if hless hs.st (hs.arr.getD (2 * i + 2) 0) (hs.arr.getD i 0) then
          down (hswap hs i (2 * i + 2)) (2 * i + 2) n
        else (hs, i)
      else
        if hless hs.st (hs.arr.getD (2 * i + 1) 0) (hs.arr.getD i 0) then
          down (hswap hs i (2 * i + 1)) (2 * i + 1) n
        else (hs, i)
    else (hs, i) := by
  show downGo (n - i) hs i n = _
  by_cases hg : 2 * i + 1 < n
  · obtain ⟨g, hge⟩ : ∃ g, n - i = g + 1 := ⟨n - i - 1, by omega⟩
    rw [hge]
    show (if 2 * i + 1 < n then _ else _) = _
    rw [if_pos hg, if_pos hg]
    by_cases hc1 : 2 * i + 2 < n ∧
        hless hs.st (hs.arr.getD (2 * i + 2) 0) (hs.arr.getD (2 * i + 1) 0) = true
    · rw [if_pos hc1, if_pos hc1]
      by_cases hc2 : hless hs.st (hs.arr.getD (2 * i + 2) 0) (hs.arr.getD i 0) = true
      · rw [if_pos hc2, if_pos hc2]
        exact downGo_congr (n - (2 * i + 2)) g (n - (2 * i + 2)) _ _ n rfl
          (by omega) (by omega)
      · rw [if_neg hc2, if_neg hc2]
    · rw [if_neg hc1, if_neg hc1]
      by_cases hc2 : hless hs.st (hs.arr.getD (2 * i + 1) 0) (hs.arr.getD i 0) = true
      · rw [if_pos hc2, if_pos hc2]
        exact downGo_congr (n - (2 * i + 1)) g (n - (2 * i + 1)) _ _ n rfl
          (by omega) (by omega)
      · rw [if_neg hc2, if_neg hc2]
  · rw [if_neg hg]
    cases hni : n - i with
    | zero => rfl
    | succ g =>
      show (if 2 * i + 1 < n then _ else (hs, i)) = (hs, i)
      rw [if_neg hg]

/-! ## Store lemmas -/

theorem getR_set (st : List blockRetrieval) (r : Nat) (v : blockRetrieval) (x : Nat) :
    getR (st.set r v) x = if x = r ∧ r < st.length then v else getR st x := by
  unfold getR
  rw [List.getD_eq_getElem?_getD, List.getD_eq_getElem?_getD, List.getElem?_set]
  by_cases h1 : r = x
  · subst h1
    by_cases h2 : r < st.length
    · simp [h2]
    · have : st.length ≤ r := Nat.le_of_not_lt h2
      simp [h2, List.getElem?_eq_none this]
  · have h1' : ¬(x = r) := fun h => h1 h.symm
    simp [h1, h1']

theorem getR_setIdx (st : List blockRetrieval) (r : Nat) (i : Int) (x : Nat) :
    getR (setIdx st r i) x =
      if x = r ∧ r < st.length then { getR st r with index := i } else getR st x := by
  unfold setIdx
  exact getR_set st r _ x

theorem length_setIdx (st : List blockRetrieval) (r : Nat) (i : Int) :
    (setIdx st r i).length = st.length := by
  unfold setIdx
  exact List.length_set st r _

theorem getR_append_lt (st l : List blockRetrieval) (x : Nat) (h : x < st.length) :
    getR (st ++ l) x = getR st x := by
  unfold getR
  rw [List.getD_eq_getElem?_getD, List.getD_eq_getElem?_getD, List.getElem?_append]
  simp [h]

theorem getR_append_self (st : List blockRetrieval) (v : blockRetrieval) :
    getR (st ++ [v]) st.length = v := by
  unfold getR
  rw [List.getD_eq_getElem?_getD, List.getElem?_append]
  simp

/-! ## Registry lemmas -/

theorem lookupPtr_insertPtr (l : List (Nat × Nat)) (k v k' : Nat) :
    lookupPtr (insertPtr l k v) k' = if k' = k then some v else lookupPtr l k' := by
  induction l with
  | nil =>
    by_cases h : k' = k
    · simp [insertPtr, lookupPtr, h]
    · have h' : ¬(k = k') := fun hh => h hh.symm
      simp [insertPtr, lookupPtr, h, h']
  | cons a t ih =>
    by_cases ha : a.1 = k
    · have : insertPtr (a :: t) k v = insertPtr t k v := by
        simp [insertPtr, List.filter_cons, ha]
      rw [this, ih]
      by_cases h : k' = k
      · simp [h]
      · have ha' : ¬(a.1 = k') := by rw [ha]; exact fun hh => h hh.symm
        simp [h, lookupPtr, ha']
    · have : insertPtr (a :: t) k v = a :: insertPtr t k v := by
        simp [insertPtr, List.filter_cons, ha]
      rw [this]
      by_cases hk : a.1 = k'
      · have h : ¬(k' = k) := by
          intro hh
          exact ha (by rw [hk, hh])
        simp [lookupPtr, hk, h]
      · simp [lookupPtr, hk, ih]

theorem lookupPtr_erasePtr (l : List (Nat × Nat)) (k k' : Nat) :
    lookupPtr (erasePtr l k) k' = if k' = k then none else lookupPtr l k' := by
  induction l with
  | nil => simp [erasePtr, lookupPtr]
  | cons a t ih =>
    by_cases ha : a.1 = k
    · have : erasePtr (a :: t) k = erasePtr t k := by
        simp [erasePtr, List.filter_cons, ha]
      rw [this, ih]
      by_cases h : k' = k
      · simp [h]
      · have ha' : ¬(a.1 = k') := by rw [ha]; exact fun hh => h hh.symm
        simp [h, lookupPtr, ha']
    · have : erasePtr (a :: t) k = a :: erasePtr t k := by
        simp [erasePtr, List.filter_cons, ha]
      rw [this]
      by_cases hk : a.1 = k'
      · have h : ¬(k' = k) := by
          intro hh
          exact ha (by rw [hk, hh])
        simp [lookupPtr, hk, h]
      · simp [lookupPtr, hk, ih]

theorem keysNodup_insertPtr (l : List (Nat × Nat)) (k v : Nat)
    (h : (l.map Prod.fst).Nodup) : ((insertPtr l k v).map Prod.fst).Nodup := by
  unfold insertPtr
  rw [List.map_append, List.nodup_append]
  refine ⟨?_, by simp, ?_⟩
  · exact List.Nodup.sublist (List.Sublist.map Prod.fst (List.filter_sublist l)) h
  · intro a ha hb
    simp only [List.map_cons, List.map_nil, List.mem_singleton] at hb
    subst hb
    simp only [List.mem_map] at ha
    obtain ⟨p, hp, rfl⟩ := ha
    have := List.of_mem_filter hp
    simp at this

theorem keysNodup_erasePtr (l : List (Nat × Nat)) (k : Nat)
    (h : (l.map Prod.fst).Nodup) : ((erasePtr l k).map Prod.fst).Nodup :=
  List.Nodup.sublist (List.Sublist.map Prod.fst (List.filter_sublist l)) h

theorem noIdx_set_index (v : blockRetrieval) (i : Int) :
    noIdx { v with index := i } = noIdx v := rfl

theorem siftOK_refl (hs : HS) : SiftOK hs hs :=
  ⟨Eq.refl _, Eq.refl _, fun _ => Iff.rfl, fun _ => Eq.refl _,
   fun _ => Or.inl (Eq.refl _), id⟩

theorem SiftOK.trans {a b c : HS} (h1 : SiftOK a b) (h2 : SiftOK b c) : SiftOK a c := by
  refine ⟨h2.lenArr.trans h1.lenArr, h2.lenSt.trans h1.lenSt,
    fun x => (h2.mem x).trans (h1.mem x),
    fun x => (h2.noidx x).trans (h1.noidx x), fun x => ?_,
    fun h => h2.accv (h1.accv h)⟩
  rcases h2.idx x with h | h
  · rcases h1.idx x with h' | h'
    · exact Or.inl (h.trans h')
    · exact Or.inr ⟨(h2.mem x).mpr h'.1, h ▸ h'.2⟩
  · exact Or.inr h

/-! ## Swap lemmas -/

theorem length_arr_hswap (hs : HS) (i j : Nat) :
    (hswap hs i j).arr.length = hs.arr.length := by
  simp [hswap]

theorem length_st_hswap (hs : HS) (i j : Nat) :
    (hswap hs i j).st.length = hs.st.length := by
  simp [hswap, length_setIdx]

theorem getD_set_nat (l : List Nat) (m v k : Nat) :
    (l.set m v).getD k 0 = if m = k ∧ m < l.length then v else l.getD k 0 := by
  rw [List.getD_eq_getElem?_getD, List.getElem?_set, List.getD_eq_getElem?_getD]
  by_cases h1 : m = k
  · subst h1
    by_cases h2 : m < l.length
    · simp [h2]
    · simp [h2, List.getElem?_eq_none (Nat.le_of_not_lt h2)]
  · simp [h1]

theorem getD_arr_hswap (hs : HS) (i j : Nat) (hi : i < hs.arr.length)
    (hj : j < hs.arr.length) (k : Nat) :
    (hswap hs i j).arr.getD k 0 =
      if k = j then hs.arr.getD i 0
      else if k = i then hs.arr.getD j 0
      else hs.arr.getD k 0 := by
  show ((hs.arr.set i (hs.arr.getD j 0)).set j (hs.arr.getD i 0)).getD k 0 = _
  rw [getD_set_nat, List.length_set, getD_set_nat]
  by_cases hkj : k = j
  · rw [if_pos ⟨hkj.symm, hj⟩, if_pos hkj]
  · rw [if_neg (fun h => hkj h.1.symm), if_neg hkj]
    by_cases hki : k = i
    · rw [if_pos ⟨hki.symm, hi⟩, if_pos hki]
    · rw [if_neg (fun h => hki h.1.symm), if_neg hki]

theorem getD_arr_hswap_other (hs : HS) (i j k : Nat) (hki : k ≠ i) (hkj : k ≠ j) :
    (hswap hs i j).arr.getD k 0 = hs.arr.getD k 0 := by
  show ((hs.arr.set i (hs.arr.getD j 0)).set j (hs.arr.getD i 0)).getD k 0 = _
  rw [getD_set_nat, List.length_set, getD_set_nat]
  rw [if_neg (fun h => hkj h.1.symm), if_neg (fun h => hki h.1.symm)]

theorem getR_hswap (hs : HS) (i j : Nat)
    (ha : hs.arr.getD i 0 < hs.st.length) (hb : hs.arr.getD j 0 < hs.st.length) (x : Nat) :
    getR (hswap hs i j).st x =
      if x = hs.arr.getD i 0 then { getR hs.st x with index := (j : Int) }
      else if x = hs.arr.getD j 0 then { getR hs.st x with index := (i : Int) }
      else getR hs.st x := by
  show getR (setIdx (setIdx hs.st (hs.arr.getD j 0) (i : Int)) (hs.arr.getD i 0) (j : Int)) x = _
  rw [getR_setIdx, length_setIdx, getR_setIdx, getR_setIdx]
  by_cases hxa : x = hs.arr.getD i 0
  · rw [if_pos ⟨hxa, ha⟩, if_pos hxa]
    by_cases hab : hs.arr.getD i 0 = hs.arr.getD j 0
    · rw [if_pos ⟨hab, hb⟩, hxa, hab]
    · rw [if_neg (fun h => hab h.1), hxa]
  · rw [if_neg (fun h => hxa h.1), if_neg hxa]
    by_cases hxb : x = hs.arr.getD j 0
    · rw [if_pos ⟨hxb, hb⟩, if_pos hxb, hxb]
    · rw [if_neg (fun h => hxb h.1), if_neg hxb]

theorem noIdx_getR_setIdx (st : List blockRetrieval) (r : Nat) (i : Int) (x : Nat) :
    noIdx (getR (setIdx st r i) x) = noIdx (getR st x) := by
  rw [getR_setIdx]
  split
  · rename_i h
    rw [noIdx_set_index, h.1]
  · rfl

theorem index_getR_setIdx (st : List blockRetrieval) (r : Nat) (i : Int) (x : Nat) :
    (getR (setIdx st r i) x).index = (getR st x).index ∨
      ((getR (setIdx st r i) x).index = i ∧ x = r) := by
  rw [getR_setIdx]
  split
  · rename_i h
    exact Or.inr ⟨rfl, h.1⟩
  · exact Or.inl rfl

theorem mem_iff_getD (l : List Nat) (x : Nat) :
    x ∈ l ↔ ∃ k, k < l.length ∧ l.getD k 0 = x := by
  constructor
  · intro h
    obtain ⟨k, hk, he⟩ := List.mem_iff_getElem.mp h
    refine ⟨k, hk, ?_⟩
    rw [List.getD_eq_getElem?_getD, List.getElem?_eq_getElem hk]
    exact he
  · rintro ⟨k, hk, he⟩
    rw [List.getD_eq_getElem?_getD, List.getElem?_eq_getElem hk] at he
    exact he ▸ List.getElem_mem hk

theorem hacc_inj {hs : HS} (h : HAcc hs) {k1 k2 : Nat} (h1 : k1 < hs.arr.length)
    (h2 : k2 < hs.arr.length) (he : hs.arr.getD k1 0 = hs.arr.getD k2 0) : k1 = k2 := by
  have e1 := h k1 h1
  have e2 := h k2 h2
  rw [he] at e1
  rw [e1] at e2
  exact Int.ofNat_inj.mp e2

theorem hless_self (st : List blockRetrieval) (x : Nat) : hless st x x = false := by
  simp [hless]

/-- A single `Swap` is a well-behaved sift step. -/
theorem hswap_siftOK (hs : HS) (i j : Nat) (hi : i < hs.arr.length)
    (hj : j < hs.arr.length) : SiftOK hs (hswap hs i j) := by
  have hmem : ∀ x, x ∈ (hswap hs i j).arr ↔ x ∈ hs.arr := by
    intro x
    rw [mem_iff_getD, mem_iff_getD, length_arr_hswap]
    constructor
    · rintro ⟨k, hk, he⟩
      rw [getD_arr_hswap hs i j hi hj] at he
      by_cases hkj : k = j
      · rw [if_pos hkj] at he
        exact ⟨i, hi, he⟩
      · rw [if_neg hkj] at he
        by_cases hki : k = i
        · rw [if_pos hki] at he
          exact ⟨j, hj, he⟩
        · rw [if_neg hki] at he
          exact ⟨k, hk, he⟩
    · rintro ⟨k, hk, he⟩
      by_cases hki : k = i
      · refine ⟨j, hj, ?_⟩
        rw [getD_arr_hswap hs i j hi hj, if_pos rfl, ← hki, he]
      · by_cases hkj : k = j
        · refine ⟨i, hi, ?_⟩
          rw [getD_arr_hswap hs i j hi hj]
          by_cases hij : i = j
          · rw [if_pos hij, hij, ← hkj, he]
          · rw [if_neg hij, if_pos rfl, ← hkj, he]
        · refine ⟨k, hk, ?_⟩
          rw [getD_arr_hswap hs i j hi hj, if_neg hkj, if_neg hki, he]
  have hsetst : (hswap hs i j).st =
      setIdx (setIdx hs.st (hs.arr.getD j 0) (i : Int)) (hs.arr.getD i 0) (j : Int) := rfl
  refine ⟨length_arr_hswap hs i j, length_st_hswap hs i j, hmem, ?_, ?_, ?_⟩
  · intro x
    rw [hsetst, noIdx_getR_setIdx, noIdx_getR_setIdx]
  · intro x
    rw [hsetst]
    rcases index_getR_setIdx (setIdx hs.st (hs.arr.getD j 0) (i : Int))
        (hs.arr.getD i 0) (j : Int) x with h | h
    · rw [h]
      rcases index_getR_setIdx hs.st (hs.arr.getD j 0) (i : Int) x with h' | h'
      · exact Or.inl h'
      · refine Or.inr ⟨?_, by rw [h'.1]; exact Int.ofNat_nonneg i⟩
        exact (hmem x).mpr (h'.2 ▸ (mem_iff_getD hs.arr _).mpr ⟨j, hj, rfl⟩)
    · refine Or.inr ⟨?_, by rw [h.1]; exact Int.ofNat_nonneg j⟩
      exact (hmem x).mpr (h.2 ▸ (mem_iff_getD hs.arr _).mpr ⟨i, hi, rfl⟩)
  · rintro ⟨hacc, hv⟩
    have ha : hs.arr.getD i 0 < hs.st.length :=
      hv _ ((mem_iff_getD hs.arr _).mpr ⟨i, hi, rfl⟩)
    have hb : hs.arr.getD j 0 < hs.st.length :=
      hv _ ((mem_iff_getD hs.arr _).mpr ⟨j, hj, rfl⟩)
    constructor
    · intro k hk
      rw [length_arr_hswap] at hk
      rw [getD_arr_hswap hs i j hi hj]
      by_cases hkj : k = j
      · rw [if_pos hkj, getR_hswap hs i j ha hb, if_pos rfl, hkj]
      · rw [if_neg hkj]
        by_cases hki : k = i
        · rw [if_pos hki, getR_hswap hs i j ha hb]
          have hab : hs.arr.getD j 0 ≠ hs.arr.getD i 0 := by
            intro he
            exact hkj (hki.trans (hacc_inj hacc hi hj he.symm))
          rw [if_neg hab, if_pos rfl, hki]
        · rw [if_neg hki, getR_hswap hs i j ha hb]
          have hca : hs.arr.getD k 0 ≠ hs.arr.getD i 0 := by
            intro he
            exact hki (hacc_inj hacc hk hi he)
          have hcb : hs.arr.getD k 0 ≠ hs.arr.getD j 0 := by
            intro he
            exact hkj (hacc_inj hacc hk hj he)
          rw [if_neg hca, if_neg hcb]
          exact hacc k hk
    · intro x hx
      rw [length_st_hswap]
      exact hv x ((hmem x).mp hx)

/-- The empty heap is untouched by a sift-up from any position. -/
theorem up_empty (hs : HS) (j : Nat) (he : hs.arr = []) : up hs j = hs := by
  rw [up_eq]
  split
  · rfl
  · rw [he]
    simp [hless_self]

/-- Sift-up from an in-range position is a well-behaved sift step. -/
theorem up_siftOK : ∀ (j : Nat) (hs : HS), j < hs.arr.length → SiftOK hs (up hs j) := by
  intro j
  induction j using Nat.strong_induction_on with
  | _ j IH =>
    intro hs hj
    rw [up_eq]
    split
    · exact siftOK_refl hs
    · rename_i h0
      split
      · rename_i hl
        have hpar : (j - 1) / 2 < j := by omega
        have hsw := hswap_siftOK hs ((j - 1) / 2) j (Nat.lt_trans hpar hj) hj
        have hrec := IH ((j - 1) / 2) hpar (hswap hs ((j - 1) / 2) j)
          (by rw [length_arr_hswap]; exact Nat.lt_trans hpar hj)
        exact SiftOK.trans hsw hrec
      · exact siftOK_refl hs

/-- Sift-down is a well-behaved sift step whenever its range bound is
within the array (swaps only ever touch positions below the bound). -/
theorem down_siftOK : ∀ (fuel : Nat) (hs : HS) (i n : Nat), n - i ≤ fuel →
    n ≤ hs.arr.length → SiftOK hs (down hs i n).1 := by
  intro fuel
  induction fuel with
  | zero =>
    intro hs i n hf hn
    rw [down_eq]
    have : ¬(2 * i + 1 < n) := by omega
    rw [if_neg this]
    exact siftOK_refl hs
  | succ fuel IH =>
    intro hs i n hf hn
    rw [down_eq]
    split
    · rename_i h1
      split
      · rename_i h2
        split
        · have hsw := hswap_siftOK hs i (2 * i + 2)
            (by omega) (by omega)
          have hrec := IH (hswap hs i (2 * i + 2)) (2 * i + 2) n
            (by omega) (by rw [length_arr_hswap]; exact hn)
          exact SiftOK.trans hsw hrec
        · exact siftOK_refl hs
      · split
        · have hsw := hswap_siftOK hs i (2 * i + 1)
            (by omega) (by omega)
          have hrec := IH (hswap hs i (2 * i + 1)) (2 * i + 1) n
            (by omega) (by rw [length_arr_hswap]; exact hn)
          exact SiftOK.trans hsw hrec
        · exact siftOK_refl hs
    · exact siftOK_refl hs

/-- Sift-down never touches positions at or beyond its range bound. -/
theorem down_getD_high : ∀ (fuel : Nat) (hs : HS) (i n m : Nat), n - i ≤ fuel →
    n ≤ m → (down hs i n).1.arr.getD m 0 = hs.arr.getD m 0 := by
  intro fuel
  induction fuel with
  | zero =>
    intro hs i n m hf hm
    rw [down_eq]
    have : ¬(2 * i + 1 < n) := by omega
    rw [if_neg this]
  | succ fuel IH =>
    intro hs i n m hf hm
    rw [down_eq]
    split
    · rename_i h1
      split
      · rename_i h2
        split
        · rw [IH (hswap hs i (2 * i + 2)) (2 * i + 2) n m (by omega) hm]
          exact getD_arr_hswap_other hs i (2 * i + 2) m (by omega) (by omega)
        · rfl
      · split
        · rw [IH (hswap hs i (2 * i + 1)) (2 * i + 1) n m (by omega) hm]
          exact getD_arr_hswap_other hs i (2 * i + 1) m (by omega) (by omega)
        · rfl
    · rfl

theorem getD_append_lt (l1 l2 : List Nat) (k : Nat) (h : k < l1.length) :
    (l1 ++ l2).getD k 0 = l1.getD k 0 := by
  rw [List.getD_eq_getElem?_getD, List.getD_eq_getElem?_getD, List.getElem?_append]
  simp [h]

theorem getD_append_self (l : List Nat) (r : Nat) :
    (l ++ [r]).getD l.length 0 = r := by
  rw [List.getD_eq_getElem?_getD, List.getElem?_append]
  simp

theorem getD_take (l : List Nat) (n k : Nat) (h : k < n) :
    (l.take n).getD k 0 = l.getD k 0 := by
  rw [List.getD_eq_getElem?_getD, List.getD_eq_getElem?_getD, List.getElem?_take]
  simp [h]

theorem take_getD_decomp (l : List Nat) (n : Nat) (h : l.length = n + 1) :
    l = l.take n ++ [l.getD n 0] := by
  have hn : n < l.length := by omega
  have h1 : l.take n ++ [l.getD n 0] = l.take (n + 1) := by
    rw [List.getD_eq_getElem?_getD, List.getElem?_eq_getElem hn]
    have h2 := List.take_concat_get l n hn
    rw [List.concat_eq_append] at h2
    exact h2
  rw [h1, ← h, List.take_length]

/-- Push of a fresh, live retrieval id: the array grows by that id, lengths
and all non-index fields are otherwise untouched, and accuracy and validity
are preserved. -/
theorem heapPush_spec (hs : HS) (r : Nat) (hr : r < hs.st.length) (hnm : r ∉ hs.arr)
    (hacc : HAcc hs) (hv : ValidH hs) :
    (heapPush hs r).arr.length = hs.arr.length + 1 ∧
    (heapPush hs r).st.length = hs.st.length ∧
    (∀ x, x ∈ (heapPush hs r).arr ↔ (x ∈ hs.arr ∨ x = r)) ∧
    HAcc (heapPush hs r) ∧ ValidH (heapPush hs r) ∧
    (∀ x, noIdx (getR (heapPush hs r).st x) = noIdx (getR hs.st x)) ∧
    (∀ x, (getR (heapPush hs r).st x).index = (getR hs.st x).index ∨
      (x ∈ (heapPush hs r).arr ∧ 0 ≤ (getR (heapPush hs r).st x).index)) := by
  have hs0def : heapPush hs r =
      up ⟨setIdx hs.st r (Int.ofNat hs.arr.length), hs.arr ++ [r]⟩ hs.arr.length := rfl
  set hs0 : HS := ⟨setIdx hs.st r (Int.ofNat hs.arr.length), hs.arr ++ [r]⟩ with hs0eq
  have hlen0 : hs0.arr.length = hs.arr.length + 1 := by simp [hs0eq]
  have hmem0 : ∀ x, x ∈ hs0.arr ↔ (x ∈ hs.arr ∨ x = r) := by
    intro x
    simp [hs0eq]
  have hacc0 : HAcc hs0 := by
    intro k hk
    rw [hlen0] at hk
    rcases Nat.lt_or_ge k hs.arr.length with hk2 | hk2
    · have he : hs0.arr.getD k 0 = hs.arr.getD k 0 := getD_append_lt hs.arr [r] k hk2
      have hno : ¬(hs.arr.getD k 0 = r ∧ r < hs.st.length) := by
        intro hcon
        exact hnm (hcon.1 ▸ (mem_iff_getD hs.arr _).mpr ⟨k, hk2, rfl⟩)
      rw [he, getR_setIdx, if_neg hno]
      exact hacc k hk2
    · have hkeq : k = hs.arr.length := by omega
      subst hkeq
      have he : hs0.arr.getD hs.arr.length 0 = r := getD_append_self hs.arr r
      rw [he, getR_setIdx, if_pos ⟨rfl, hr⟩]
      rfl
  have hv0 : ValidH hs0 := by
    intro x hx
    have : x ∈ hs.arr ∨ x = r := (hmem0 x).mp hx
    show x < (setIdx hs.st r (Int.ofNat hs.arr.length)).length
    rw [length_setIdx]
    rcases this with h | h
    · exact hv x h
    · exact h ▸ hr
  have hup := up_siftOK hs.arr.length hs0 (by rw [hlen0]; omega)
  have haccup := hup.accv ⟨hacc0, hv0⟩
  rw [hs0def]
  refine ⟨by rw [hup.lenArr, hlen0], ?_, ?_, haccup.1, haccup.2, ?_, ?_⟩
  · rw [hup.lenSt]
    show (setIdx hs.st r (Int.ofNat hs.arr.length)).length = hs.st.length
    exact length_setIdx hs.st r _
  · intro x
    rw [hup.mem x]
    exact hmem0 x
  · intro x
    rw [hup.noidx x]
    show noIdx (getR (setIdx hs.st r (Int.ofNat hs.arr.length)) x) = noIdx (getR hs.st x)
    exact noIdx_getR_setIdx hs.st r _ x
  · intro x
    rcases hup.idx x with h | h
    · rw [h]
      rcases index_getR_setIdx hs.st r (Int.ofNat hs.arr.length) x with h' | h'
      · exact Or.inl h'
      · refine Or.inr ⟨?_, by rw [h'.1]; exact Int.ofNat_nonneg _⟩
        rw [hup.mem x, hmem0 x]
        exact Or.inr h'.2
    · exact Or.inr h

/-- Pop of a nonempty, accurate, valid heap: the root element is returned,
removed from the array, and its index is reset to the sentinel; everything
else keeps its membership, its non-index fields, and accuracy and validity. -/
theorem heapPop_spec (hs : HS) (hacc : HAcc hs) (hv : ValidH hs)
    (hne : hs.arr.length ≠ 0) :
    ∃ hs', heapPop hs = (hs', some (hs.arr.getD 0 0)) ∧
      hs'.arr.length = hs.arr.length - 1 ∧
      hs'.st.length = hs.st.length ∧
      (∀ x, x ∈ hs'.arr ↔ (x ∈ hs.arr ∧ x ≠ hs.arr.getD 0 0)) ∧
      HAcc hs' ∧ ValidH hs' ∧
      (∀ x, noIdx (getR hs'.st x) = noIdx (getR hs.st x)) ∧
      (getR hs'.st (hs.arr.getD 0 0)).index = -1 ∧
      (∀ x, x ≠ hs.arr.getD 0 0 → ((getR hs'.st x).index = (getR hs.st x).index ∨
        (x ∈ hs'.arr ∧ 0 ≤ (getR hs'.st x).index))) := by
  have h0 : 0 < hs.arr.length := Nat.pos_of_ne_zero hne
  set n := hs.arr.length - 1 with ndef
  have hn : n < hs.arr.length := by omega
  set S1 := hswap hs 0 n with S1def
  have hsw : SiftOK hs S1 := hswap_siftOK hs 0 n h0 hn
  have haccv1 := hsw.accv ⟨hacc, hv⟩
  set S2 := (down S1 0 n).1 with S2def
  have hdn : SiftOK S1 S2 := down_siftOK n S1 0 n (by omega) (by rw [hsw.lenArr]; omega)
  have hsk : SiftOK hs S2 := SiftOK.trans hsw hdn
  have haccv2 := hdn.accv haccv1
  have hr : S2.arr.getD n 0 = hs.arr.getD 0 0 := by
    rw [S2def, down_getD_high n S1 0 n n (by omega) (Nat.le_refl n), S1def,
      getD_arr_hswap hs 0 n h0 hn, if_pos rfl]
  set r := hs.arr.getD 0 0 with rdef
  have hrmem : r ∈ hs.arr := (mem_iff_getD hs.arr r).mpr ⟨0, h0, rfl⟩
  have hrlt : r < hs.st.length := hv r hrmem
  have hrlt2 : r < S2.st.length := by rw [hsk.lenSt]; exact hrlt
  have hlen2 : S2.arr.length = hs.arr.length := by rw [hsk.lenArr]
  have hdecomp : S2.arr = S2.arr.take n ++ [r] := by
    have := take_getD_decomp S2.arr n (by omega)
    rw [hr] at this
    exact this
  have hpop : heapPop hs = (⟨setIdx S2.st r (-1), S2.arr.take n⟩, some r) := by
    unfold heapPop
    rw [if_neg hne]
    simp only [← S1def, ← S2def, ← ndef, hr]
  have hrnotin : r ∉ S2.arr.take n := by
    intro hcon
    have hlt : (S2.arr.take n).length = n := by
      rw [List.length_take]
      omega
    obtain ⟨k, hk, he⟩ := (mem_iff_getD (S2.arr.take n) r).mp hcon
    rw [hlt] at hk
    rw [getD_take S2.arr n k hk] at he
    have : k = n := hacc_inj haccv2.1 (by omega) (by omega) (by rw [he, hr])
    omega
  have hmem' : ∀ x, x ∈ S2.arr.take n ↔ (x ∈ hs.arr ∧ x ≠ r) := by
    intro x
    constructor
    · intro hx
      have hx2 : x ∈ S2.arr := by
        rw [hdecomp]
        exact List.mem_append_left _ hx
      refine ⟨(hsk.mem x).mp hx2, ?_⟩
      intro he
      exact hrnotin (he ▸ hx)
    · rintro ⟨hx, hne2⟩
      have hx2 : x ∈ S2.arr := (hsk.mem x).mpr hx
      rw [hdecomp] at hx2
      rcases List.mem_append.mp hx2 with h | h
      · exact h
      · simp only [List.mem_singleton] at h
        exact absurd h hne2
  refine ⟨⟨setIdx S2.st r (-1), S2.arr.take n⟩, hpop, ?_, ?_, hmem', ?_, ?_, ?_, ?_, ?_⟩
  · show (S2.arr.take n).length = hs.arr.length - 1
    rw [List.length_take]
    omega
  · show (setIdx S2.st r (-1)).length = hs.st.length
    rw [length_setIdx, hsk.lenSt]
  · intro k hk
    have hlt : (S2.arr.take n).length = n := by
      rw [List.length_take]
      omega
    rw [hlt] at hk
    show (getR (setIdx S2.st r (-1)) ((S2.arr.take n).getD k 0)).index = (k : Int)
    rw [getD_take S2.arr n k hk, getR_setIdx]
    have : S2.arr.getD k 0 ≠ r := by
      intro he
      have : k = n := hacc_inj haccv2.1 (by omega) (by omega) (by rw [he, hr])
      omega
    rw [if_neg (fun hcon => this hcon.1)]
    exact haccv2.1 k (by omega)
  · intro x hx
    show x < (setIdx S2.st r (-1)).length
    rw [length_setIdx]
    exact haccv2.2 x (by rw [hdecomp]; exact List.mem_append_left _ hx)
  · intro x
    show noIdx (getR (setIdx S2.st r (-1)) x) = noIdx (getR hs.st x)
    rw [noIdx_getR_setIdx]
    exact hsk.noidx x
  · show (getR (setIdx S2.st r (-1)) r).index = -1
    rw [getR_setIdx, if_pos ⟨rfl, hrlt2⟩]
  · intro x hxr
    show (getR (setIdx S2.st r (-1)) x).index = (getR hs.st x).index ∨
      (x ∈ S2.arr.take n ∧ 0 ≤ (getR (setIdx S2.st r (-1)) x).index)
    rw [getR_setIdx, if_neg (fun hcon => hxr hcon.1)]
    rcases hsk.idx x with h | h
    · exact Or.inl h
    · refine Or.inr ⟨?_, h.2⟩
      exact (hmem' x).mpr ⟨(hsk.mem x).mp h.1, hxr⟩

/-- Fix at an in-range position is a well-behaved sift step. -/
theorem heapFix_siftOK (hs : HS) (i : Nat) (hi : i < hs.arr.length) :
    SiftOK hs (heapFix hs i) := by
  have hdn : SiftOK hs (down hs i hs.arr.length).1 :=
    down_siftOK hs.arr.length hs i hs.arr.length (by omega) (Nat.le_refl _)
  show SiftOK hs (if i < (down hs i hs.arr.length).2 then (down hs i hs.arr.length).1
    else up (down hs i hs.arr.length).1 i)
  split
  · exact hdn
  · exact SiftOK.trans hdn
      (up_siftOK i (down hs i hs.arr.length).1 (by rw [hdn.lenArr]; exact hi))

/-- Fix on an empty heap does nothing, whatever position it is given. -/
theorem heapFix_empty (hs : HS) (i : Nat) (he : hs.arr = []) : heapFix hs i = hs := by
  unfold heapFix
  rw [down_eq]
  have : ¬(2 * i + 1 < hs.arr.length) := by
    rw [he]
    simp
  rw [if_neg this]
  simp only []
  rw [if_neg (by omega)]
  exact up_empty hs i he

/-! ## Characterizing the request tail -/

theorem getR_of_le (st : List blockRetrieval) (r : Nat) (h : st.length ≤ r) :
    getR st r = default := by
  unfold getR
  rw [List.getD_eq_getElem?_getD, List.getElem?_eq_none h]
  rfl

theorem fields_of_noIdx_eq {a b : blockRetrieval} (h : noIdx a = noIdx b) :
    a.blockPtr = b.blockPtr ∧ a.kmd = b.kmd ∧ a.ctxCanceled = b.ctxCanceled ∧
    a.cancelCalled = b.cancelCalled ∧ a.requests = b.requests ∧
    a.priority = b.priority ∧ a.insertionOrder = b.insertionOrder := by
  unfold noIdx at h
  simp only [Prod.mk.injEq] at h
  exact ⟨h.1, h.2.1, h.2.2.1, h.2.2.2.1, h.2.2.2.2.1, h.2.2.2.2.2.1, h.2.2.2.2.2.2⟩

theorem length_addReq (st : List blockRetrieval) (rid bv ch : Nat) :
    (addReq st rid bv ch).length = st.length :=
  List.length_set st rid _

theorem getR_addReq (st : List blockRetrieval) (rid bv ch x : Nat) :
    getR (addReq st rid bv ch) x =
      if x = rid ∧ rid < st.length then
        { getR st rid with requests := (getR st rid).requests ++ [⟨bv, ch⟩] }
      else getR st x :=
  getR_set st rid _ x

theorem index_getR_addReq (st : List blockRetrieval) (rid bv ch x : Nat) :
    (getR (addReq st rid bv ch) x).index = (getR st x).index := by
  rw [getR_addReq]
  split
  · rename_i h
    rw [h.1]
  · rfl

theorem priority_getR_addReq (st : List blockRetrieval) (rid bv ch x : Nat) :
    (getR (addReq st rid bv ch) x).priority = (getR st x).priority := by
  rw [getR_addReq]
  split
  · rename_i h
    rw [h.1]
  · rfl

theorem noIdx_getR_addReq_ne (st : List blockRetrieval) (rid bv ch x : Nat)
    (hx : x ≠ rid) : noIdx (getR (addReq st rid bv ch) x) = noIdx (getR st x) := by
  rw [getR_addReq, if_neg (fun h => hx h.1)]

theorem getR_addReq_self (st : List blockRetrieval) (rid bv ch : Nat)
    (h : rid < st.length) :
    getR (addReq st rid bv ch) rid =
      { getR st rid with requests := (getR st rid).requests ++ [⟨bv, ch⟩] } := by
  rw [getR_addReq, if_pos ⟨rfl, h⟩]

theorem hacc_transfer (st st' : List blockRetrieval) (arr : List Nat)
    (hidx : ∀ x, (getR st' x).index = (getR st x).index) :
    HAcc ⟨st, arr⟩ → HAcc ⟨st', arr⟩ := by
  intro h k hk
  rw [hidx]
  exact h k hk

theorem validH_transfer (st st' : List blockRetrieval) (arr : List Nat)
    (hlen : st'.length = st.length) : ValidH ⟨st, arr⟩ → ValidH ⟨st', arr⟩ := by
  intro h x hx
  rw [show (HS.mk st' arr).st = st' from rfl, hlen]
  exact h x hx

theorem requestTail_pos (s : brqState) (rid : Nat) (priority : Int) (bv : Nat)
    (hc : (getR (addReq s.retrievals rid bv s.nextCh) rid).index ≠ -1 ∧
      (getR (addReq s.retrievals rid bv s.nextCh) rid).priority < priority) :
    requestTail s rid priority bv =
      ({ s with
         retrievals := (heapFix ⟨(addReq s.retrievals rid bv s.nextCh).set rid
             { getR (addReq s.retrievals rid bv s.nextCh) rid with priority := priority },
             s.arr⟩ (getR (addReq s.retrievals rid bv s.nextCh) rid).index.toNat).st
         arr := (heapFix ⟨(addReq s.retrievals rid bv s.nextCh).set rid
             { getR (addReq s.retrievals rid bv s.nextCh) rid with priority := priority },
             s.arr⟩ (getR (addReq s.retrievals rid bv s.nextCh) rid).index.toNat).arr
         nextCh := s.nextCh + 1 }, s.nextCh) := by
  simp only [requestTail]
  rw [if_pos hc]

theorem requestTail_neg (s : brqState) (rid : Nat) (priority : Int) (bv : Nat)
    (hc : ¬((getR (addReq s.retrievals rid bv s.nextCh) rid).index ≠ -1 ∧
      (getR (addReq s.retrievals rid bv s.nextCh) rid).priority < priority)) :
    requestTail s rid priority bv =
      ({ s with
         retrievals := addReq s.retrievals rid bv s.nextCh
         nextCh := s.nextCh + 1 }, s.nextCh) := by
  simp only [requestTail]
  rw [if_neg hc]

/-- Full effect of the request tail: the returned channel is the fresh one,
only `retrievals`, `arr` and `nextCh` change, heap membership is untouched,
accuracy and validity are kept, retrieval `rid` gets the new request
appended and its priority raised to the requested one exactly when it was
still in the heap with a lower priority, and no other retrieval changes any
field except possibly a heap index (always to a valid position). -/
theorem requestTail_spec (s : brqState) (rid : Nat) (priority : Int) (bv : Nat)
    (hv : ValidH ⟨s.retrievals, s.arr⟩) (hacc : HAcc ⟨s.retrievals, s.arr⟩)
    (hmem : (getR s.retrievals rid).index ≠ -1 → rid ∈ s.arr) :
    (requestTail s rid priority bv).2 = s.nextCh ∧
    (requestTail s rid priority bv).1.ptrs = s.ptrs ∧
    (requestTail s rid priority bv).1.insertionCount = s.insertionCount ∧
    (requestTail s rid priority bv).1.doneClosed = s.doneClosed ∧
    (requestTail s rid priority bv).1.attempts = s.attempts ∧
    (requestTail s rid priority bv).1.claimed = s.claimed ∧
    (requestTail s rid priority bv).1.events = s.events ∧
    (requestTail s rid priority bv).1.workerSlots = s.workerSlots ∧
    (requestTail s rid priority bv).1.numWorkers = s.numWorkers ∧
    (requestTail s rid priority bv).1.nextCh = s.nextCh + 1 ∧
    (requestTail s rid priority bv).1.retrievals.length = s.retrievals.length ∧
    (requestTail s rid priority bv).1.arr.length = s.arr.length ∧
    (∀ x, x ∈ (requestTail s rid priority bv).1.arr ↔ x ∈ s.arr) ∧
    ValidH ⟨(requestTail s rid priority bv).1.retrievals,
      (requestTail s rid priority bv).1.arr⟩ ∧
    HAcc ⟨(requestTail s rid priority bv).1.retrievals,
      (requestTail s rid priority bv).1.arr⟩ ∧
    (∀ x, x ≠ rid → noIdx (getR (requestTail s rid priority bv).1.retrievals x) =
      noIdx (getR s.retrievals x)) ∧
    (∀ x, (getR (requestTail s rid priority bv).1.retrievals x).index =
        (getR s.retrievals x).index ∨
      (x ∈ (requestTail s rid priority bv).1.arr ∧
        0 ≤ (getR (requestTail s rid priority bv).1.retrievals x).index)) ∧
    (getR (requestTail s rid priority bv).1.retrievals rid).blockPtr =
      (getR s.retrievals rid).blockPtr ∧
    (getR (requestTail s rid priority bv).1.retrievals rid).kmd =
      (getR s.retrievals rid).kmd ∧
    (getR (requestTail s rid priority bv).1.retrievals rid).ctxCanceled =
      (getR s.retrievals rid).ctxCanceled ∧
    (getR (requestTail s rid priority bv).1.retrievals rid).cancelCalled =
      (getR s.retrievals rid).cancelCalled ∧
    (getR (requestTail s rid priority bv).1.retrievals rid).insertionOrder =
      (getR s.retrievals rid).insertionOrder ∧
    (rid < s.retrievals.length →
      (getR (requestTail s rid priority bv).1.retrievals rid).requests =
        (getR s.retrievals rid).requests ++ [⟨bv, s.nextCh⟩]) ∧
    (getR (requestTail s rid priority bv).1.retrievals rid).priority =
      (if (getR s.retrievals rid).index ≠ -1 ∧ (getR s.retrievals rid).priority < priority
       then priority else (getR s.retrievals rid).priority) := by
  by_cases hc : (getR (addReq s.retrievals rid bv s.nextCh) rid).index ≠ -1 ∧
      (getR (addReq s.retrievals rid bv s.nextCh) rid).priority < priority
  · -- the priority-raise branch
    have hridlen : rid < s.retrievals.length := by
      by_contra hcon
      have h1 : (addReq s.retrievals rid bv s.nextCh).length ≤ rid := by
        rw [length_addReq]
        omega
      have h2 := getR_of_le (addReq s.retrievals rid bv s.nextCh) rid h1
      rw [h2] at hc
      exact hc.1 rfl
    have hidx0 : (getR s.retrievals rid).index ≠ -1 :=
      fun h => hc.1 ((index_getR_addReq s.retrievals rid bv s.nextCh rid).trans h)
    have hmem' : rid ∈ s.arr := hmem hidx0
    obtain ⟨k0, hk0, hk0e⟩ := (mem_iff_getD s.arr rid).mp hmem'
    have hk0i : (getR s.retrievals rid).index = (k0 : Int) := by
      have := hacc k0 hk0
      rw [hk0e] at this
      exact this
    set st1 := addReq s.retrievals rid bv s.nextCh with st1def
    set br := getR st1 rid with brdef
    set st2 := st1.set rid { br with priority := priority } with st2def
    have hlen1 : st1.length = s.retrievals.length := length_addReq s.retrievals rid bv s.nextCh
    have hlen2 : st2.length = st1.length := List.length_set st1 rid _
    have hg2 : ∀ x, getR st2 x =
        if x = rid ∧ rid < st1.length then { br with priority := priority }
        else getR st1 x := fun x => getR_set st1 rid _ x
    have hidx2 : ∀ x, (getR st2 x).index = (getR st1 x).index := by
      intro x
      rw [hg2]
      split
      · rename_i h
        rw [h.1, ← brdef]
      · rfl
    have hidx21 : ∀ x, (getR st2 x).index = (getR s.retrievals x).index := by
      intro x
      rw [hidx2, st1def, index_getR_addReq]
    have hbridx : br.index = (k0 : Int) := by
      rw [brdef, st1def, index_getR_addReq]
      exact hk0i
    have htn : br.index.toNat = k0 := by
      rw [hbridx]
      exact Int.toNat_ofNat k0
    have hacc2 : HAcc ⟨st2, s.arr⟩ := hacc_transfer _ _ _ hidx21 hacc
    have hv2 : ValidH ⟨st2, s.arr⟩ :=
      validH_transfer _ _ _ (hlen2.trans hlen1) hv
    have hfix : SiftOK ⟨st2, s.arr⟩ (heapFix ⟨st2, s.arr⟩ br.index.toNat) := by
      apply heapFix_siftOK
      rw [htn]
      exact hk0
    have haccv := hfix.accv ⟨hacc2, hv2⟩
    have hg2rid : getR st2 rid = { br with priority := priority } := by
      rw [hg2, if_pos ⟨rfl, by omega⟩]
    have hbrvalue : br = { getR s.retrievals rid with
        requests := (getR s.retrievals rid).requests ++ [⟨bv, s.nextCh⟩] } := by
      rw [brdef, st1def]
      exact getR_addReq_self s.retrievals rid bv s.nextCh hridlen
    have hfid := fields_of_noIdx_eq (hfix.noidx rid)
    rw [requestTail_pos s rid priority bv hc]
    have hcnd : (getR s.retrievals rid).index ≠ -1 ∧
        (getR s.retrievals rid).priority < priority := by
      refine ⟨hidx0, ?_⟩
      have h2 := hc.2
      rw [hbrvalue] at h2
      exact h2
    refine ⟨rfl, rfl, rfl, rfl, rfl, rfl, rfl, rfl, rfl, rfl, ?_, ?_, ?_, haccv.2, haccv.1,
      ?_, ?_, ?_, ?_, ?_, ?_, ?_, ?_, ?_⟩
    · show (heapFix ⟨st2, s.arr⟩ br.index.toNat).st.length = s.retrievals.length
      rw [hfix.lenSt]
      exact hlen2.trans hlen1
    · show (heapFix ⟨st2, s.arr⟩ br.index.toNat).arr.length = s.arr.length
      rw [hfix.lenArr]
    · intro x
      exact hfix.mem x
    · intro x hx
      have h1 := hfix.noidx x
      rw [hg2, if_neg (fun h => hx h.1), st1def, noIdx_getR_addReq_ne _ _ _ _ _ hx] at h1
      exact h1
    · intro x
      rcases hfix.idx x with h | h
      · rw [hidx21 x] at h
        exact Or.inl h
      · exact Or.inr h
    · rw [hfid.1, hg2rid, hbrvalue]
    · rw [hfid.2.1, hg2rid, hbrvalue]
    · rw [hfid.2.2.1, hg2rid, hbrvalue]
    · rw [(fields_of_noIdx_eq (hfix.noidx rid)).2.2.2.1, hg2rid, hbrvalue]
    · rw [(fields_of_noIdx_eq (hfix.noidx rid)).2.2.2.2.2.2, hg2rid, hbrvalue]
    · intro _
      rw [(fields_of_noIdx_eq (hfix.noidx rid)).2.2.2.2.1, hg2rid, hbrvalue]
    · rw [(fields_of_noIdx_eq (hfix.noidx rid)).2.2.2.2.2.1, hg2rid, if_pos hcnd]
  · -- no raise: just the append
    have hcnd : ¬((getR s.retrievals rid).index ≠ -1 ∧
        (getR s.retrievals rid).priority < priority) := by
      intro h
      apply hc
      rw [index_getR_addReq, priority_getR_addReq]
      exact h
    rw [requestTail_neg s rid priority bv hc]
    refine ⟨rfl, rfl, rfl, rfl, rfl, rfl, rfl, rfl, rfl, rfl,
      length_addReq s.retrievals rid bv s.nextCh, rfl, fun x => Iff.rfl,
      validH_transfer _ _ _ (length_addReq s.retrievals rid bv s.nextCh) hv,
      hacc_transfer _ _ _ (fun x => index_getR_addReq s.retrievals rid bv s.nextCh x) hacc,
      fun x hx => noIdx_getR_addReq_ne s.retrievals rid bv s.nextCh x hx,
      fun x => Or.inl (index_getR_addReq s.retrievals rid bv s.nextCh x),
      ?_, ?_, ?_, ?_, ?_, ?_, ?_⟩
    · rw [getR_addReq]
      split
      · rename_i h
        rw [h.1]
      · rfl
    · rw [getR_addReq]
      split
      · rename_i h
        rw [h.1]
      · rfl
    · rw [getR_addReq]
      split
      · rename_i h
        rw [h.1]
      · rfl
    · rw [getR_addReq]
      split
      · rename_i h
        rw [h.1]
      · rfl
    · rw [getR_addReq]
      split
      · rename_i h
        rw [h.1]
      · rfl
    · intro h
      rw [getR_addReq_self s.retrievals rid bv s.nextCh h]
    · rw [priority_getR_addReq, if_neg hcnd]

/-! ## Characterizing the three branches of the request loop body -/

theorem requestIter_create (s : brqState) (priority : Int) (kmd ptr bv : Nat)
    (hnone : lookupPtr s.ptrs ptr = none) :
    requestIter s priority kmd ptr bv =
      ((requestTail { s with
          retrievals := (heapPush ⟨s.retrievals ++ [freshBR s priority kmd ptr], s.arr⟩
            s.retrievals.length).st
          arr := (heapPush ⟨s.retrievals ++ [freshBR s priority kmd ptr], s.arr⟩
            s.retrievals.length).arr
          insertionCount := (s.insertionCount + 1) % 2 ^ 64
          ptrs := insertPtr s.ptrs ptr s.retrievals.length
          attempts := s.attempts + 1 } s.retrievals.length priority bv).1,
       some (requestTail { s with
          retrievals := (heapPush ⟨s.retrievals ++ [freshBR s priority kmd ptr], s.arr⟩
            s.retrievals.length).st
          arr := (heapPush ⟨s.retrievals ++ [freshBR s priority kmd ptr], s.arr⟩
            s.retrievals.length).arr
          insertionCount := (s.insertionCount + 1) % 2 ^ 64
          ptrs := insertPtr s.ptrs ptr s.retrievals.length
          attempts := s.attempts + 1 } s.retrievals.length priority bv).2) := by
  simp only [requestIter, hnone, freshBR]

theorem requestIter_attach (s : brqState) (priority : Int) (kmd ptr bv rid : Nat)
    (hsome : lookupPtr s.ptrs ptr = some rid)
    (hcc : (getR s.retrievals rid).ctxCanceled = false) :
    requestIter s priority kmd ptr bv =
      ((requestTail s rid priority bv).1, some (requestTail s rid priority bv).2) := by
  simp only [requestIter, hsome, hcc]
  rfl

theorem requestIter_cancel (s : brqState) (priority : Int) (kmd ptr bv rid : Nat)
    (hsome : lookupPtr s.ptrs ptr = some rid)
    (hcc : (getR s.retrievals rid).ctxCanceled = true) :
    requestIter s priority kmd ptr bv =
      ({ s with ptrs := erasePtr s.ptrs (getR s.retrievals rid).blockPtr }, none) := by
  simp only [requestIter, hsome, hcc]
  rfl

/-- A member of an accurate heap has the (nonnegative) index of its
position, so in particular not the sentinel. -/
theorem index_nonneg_of_mem (hs : HS) (hacc : HAcc hs) (x : Nat) (hx : x ∈ hs.arr) :
    0 ≤ (getR hs.st x).index := by
  obtain ⟨k, hk, he⟩ := (mem_iff_getD hs.arr x).mp hx
  have := hacc k hk
  rw [he] at this
  rw [this]
  exact Int.ofNat_nonneg k

/-- Full effect of the no-entry (creation) branch of the request loop: a
fresh retrieval id (the next store position) is created carrying the
caller's metadata, priority and locator and the current insertion counter,
registered, pushed onto the heap, and given the caller's request; the
insertion counter is bumped, one matching attempt is scheduled, and no
existing retrieval changes anything but possibly a heap index. -/
theorem requestIter_create_spec (s : brqState) (priority : Int) (kmd ptr bv : Nat)
    (hnone : lookupPtr s.ptrs ptr = none)
    (hv : ValidH ⟨s.retrievals, s.arr⟩) (hacc : HAcc ⟨s.retrievals, s.arr⟩) :
    (requestIter s priority kmd ptr bv).2 = some s.nextCh ∧
    (requestIter s priority kmd ptr bv).1.ptrs =
      insertPtr s.ptrs ptr s.retrievals.length ∧
    (requestIter s priority kmd ptr bv).1.insertionCount =
      (s.insertionCount + 1) % 2 ^ 64 ∧
    (requestIter s priority kmd ptr bv).1.doneClosed = s.doneClosed ∧
    (requestIter s priority kmd ptr bv).1.attempts = s.attempts + 1 ∧
    (requestIter s priority kmd ptr bv).1.claimed = s.claimed ∧
    (requestIter s priority kmd ptr bv).1.events = s.events ∧
    (requestIter s priority kmd ptr bv).1.workerSlots = s.workerSlots ∧
    (requestIter s priority kmd ptr bv).1.numWorkers = s.numWorkers ∧
    (requestIter s priority kmd ptr bv).1.nextCh = s.nextCh + 1 ∧
    (requestIter s priority kmd ptr bv).1.retrievals.length = s.retrievals.length + 1 ∧
    (requestIter s priority kmd ptr bv).1.arr.length = s.arr.length + 1 ∧
    (∀ x, x ∈ (requestIter s priority kmd ptr bv).1.arr ↔
      (x ∈ s.arr ∨ x = s.retrievals.length)) ∧
    ValidH ⟨(requestIter s priority kmd ptr bv).1.retrievals,
      (requestIter s priority kmd ptr bv).1.arr⟩ ∧
    HAcc ⟨(requestIter s priority kmd ptr bv).1.retrievals,
      (requestIter s priority kmd ptr bv).1.arr⟩ ∧
    (∀ x, x ≠ s.retrievals.length →
      noIdx (getR (requestIter s priority kmd ptr bv).1.retrievals x) =
        noIdx (getR s.retrievals x)) ∧
    (∀ x, x ≠ s.retrievals.length →
      ((getR (requestIter s priority kmd ptr bv).1.retrievals x).index =
          (getR s.retrievals x).index ∨
        (x ∈ (requestIter s priority kmd ptr bv).1.arr ∧
          0 ≤ (getR (requestIter s priority kmd ptr bv).1.retrievals x).index))) ∧
    (getR (requestIter s priority kmd ptr bv).1.retrievals s.retrievals.length).blockPtr
      = ptr ∧
    (getR (requestIter s priority kmd ptr bv).1.retrievals s.retrievals.length).kmd
      = kmd ∧
    (getR (requestIter s priority kmd ptr bv).1.retrievals
      s.retrievals.length).ctxCanceled = false ∧
    (getR (requestIter s priority kmd ptr bv).1.retrievals
      s.retrievals.length).cancelCalled = false ∧
    (getR (requestIter s priority kmd ptr bv).1.retrievals s.retrievals.length).requests
      = [⟨bv, s.nextCh⟩] ∧
    (getR (requestIter s priority kmd ptr bv).1.retrievals s.retrievals.length).priority
      = priority ∧
    (getR (requestIter s priority kmd ptr bv).1.retrievals
      s.retrievals.length).insertionOrder = s.insertionCount ∧
    s.retrievals.length ∈ (requestIter s priority kmd ptr bv).1.arr ∧
    0 ≤ (getR (requestIter s priority kmd ptr bv).1.retrievals
      s.retrievals.length).index := by
  set rid := s.retrievals.length with riddef
  set fb := freshBR s priority kmd ptr with fbdef
  set hs0 : HS := ⟨s.retrievals ++ [fb], s.arr⟩ with hs0def
  have hg0 : ∀ x, x ≠ rid → getR hs0.st x = getR s.retrievals x := by
    intro x hx
    rcases Nat.lt_or_ge x s.retrievals.length with h | h
    · exact getR_append_lt s.retrievals [fb] x h
    · have hgt : rid < x := by omega
      rw [getR_of_le hs0.st x (by simp [hs0def]; omega), getR_of_le s.retrievals x (by omega)]
  have hg0rid : getR hs0.st rid = fb := getR_append_self s.retrievals fb
  have hacc0 : HAcc hs0 := by
    intro k hk
    have hk2 : k < s.arr.length := hk
    have hne : hs0.arr.getD k 0 ≠ rid := by
      intro he
      have h3 : s.arr.getD k 0 < s.retrievals.length :=
        hv _ ((mem_iff_getD s.arr _).mpr ⟨k, hk2, rfl⟩)
      have he2 : s.arr.getD k 0 = rid := he
      omega
    rw [hg0 _ hne]
    exact hacc k hk2
  have hv0 : ValidH hs0 := by
    intro x hx
    have h1 : x < s.retrievals.length := hv x hx
    show x < (s.retrievals ++ [fb]).length
    have h2 : (s.retrievals ++ [fb]).length = s.retrievals.length + 1 := by simp
    omega
  have hrlen : rid < hs0.st.length := by
    show rid < (s.retrievals ++ [fb]).length
    have h2 : (s.retrievals ++ [fb]).length = s.retrievals.length + 1 := by simp
    omega
  have hrnm : rid ∉ hs0.arr := by
    intro hcon
    have h1 : rid < s.retrievals.length := hv rid hcon
    omega
  obtain ⟨hplenA, hplenS, hpmem, hpacc, hpv, hpnoidx, hpidx⟩ :=
    heapPush_spec hs0 rid hrlen hrnm hacc0 hv0
  set s1 : brqState := { s with
    retrievals := (heapPush hs0 rid).st
    arr := (heapPush hs0 rid).arr
    insertionCount := (s.insertionCount + 1) % 2 ^ 64
    ptrs := insertPtr s.ptrs ptr rid
    attempts := s.attempts + 1 } with s1def
  have hiter : requestIter s priority kmd ptr bv =
      ((requestTail s1 rid priority bv).1, some (requestTail s1 rid priority bv).2) :=
    requestIter_create s priority kmd ptr bv hnone
  have hv1 : ValidH ⟨s1.retrievals, s1.arr⟩ := hpv
  have hacc1 : HAcc ⟨s1.retrievals, s1.arr⟩ := hpacc
  have hmemrid : rid ∈ s1.arr := (hpmem rid).mpr (Or.inr rfl)
  have hs1len : s1.retrievals.length = s.retrievals.length + 1 := by
    show (heapPush hs0 rid).st.length = _
    rw [hplenS]
    show (s.retrievals ++ [fb]).length = _
    simp
  obtain ⟨ht2, htptrs, htic, htdone, htatt, htclaimed, htevents, htws, htnw, htnc,
    htlen, htalen, htmem, htv, htacc, htnoidx, htidx, htbp, htkmd, htcc, htcanc, htio,
    htreq, htpri⟩ :=
    requestTail_spec s1 rid priority bv hv1 hacc1 (fun _ => hmemrid)
  have hnoidx1 : ∀ x, x ≠ rid →
      noIdx (getR (requestTail s1 rid priority bv).1.retrievals x) =
        noIdx (getR s.retrievals x) := by
    intro x hx
    rw [htnoidx x hx]
    show noIdx (getR (heapPush hs0 rid).st x) = noIdx (getR s.retrievals x)
    rw [hpnoidx x]
    rw [congrArg noIdx (hg0 x hx)]
  have hafix : ∀ x, x ∈ (requestTail s1 rid priority bv).1.arr ↔ (x ∈ s.arr ∨ x = rid) := by
    intro x
    rw [htmem x]
    show x ∈ (heapPush hs0 rid).arr ↔ _
    rw [hpmem x]
  have hfb : noIdx (getR (requestTail s1 rid priority bv).1.retrievals rid) =
      noIdx (getR s1.retrievals rid) → True := fun _ => trivial
  have hg1rid : noIdx (getR s1.retrievals rid) = noIdx fb := by
    show noIdx (getR (heapPush hs0 rid).st rid) = noIdx fb
    rw [hpnoidx rid, hg0rid]
  obtain ⟨hf1, hf2, hf3, hf4, hf5, hf6, hf7⟩ := fields_of_noIdx_eq hg1rid
  rw [hiter]
  refine ⟨by rw [ht2], by rw [htptrs], by rw [htic], by rw [htdone], by rw [htatt],
    by rw [htclaimed], by rw [htevents], by rw [htws], by rw [htnw], by rw [htnc],
    by rw [htlen, hs1len], ?_,
    hafix, htv, htacc, hnoidx1, ?_, ?_, ?_, ?_, ?_, ?_, ?_, ?_, ?_, ?_⟩
  · rw [htalen]
    show (heapPush hs0 rid).arr.length = s.arr.length + 1
    rw [hplenA]
  · intro x hx
    rcases htidx x with h | h
    · rcases hpidx x with h2 | h2
      · left
        rw [h]
        show (getR (heapPush hs0 rid).st x).index = _
        rw [h2, congrArg blockRetrieval.index (hg0 x hx)]
      · right
        refine ⟨(htmem x).mpr h2.1, ?_⟩
        rw [h]
        exact h2.2
    · exact Or.inr h
  · rw [htbp]
    exact hf1
  · rw [htkmd]
    exact hf2
  · rw [htcc]
    exact hf3
  · rw [htcanc]
    exact hf4
  · have h1 := htreq (by omega : rid < s1.retrievals.length)
    rw [h1, hf5]
    rfl
  · have hno : ¬((getR s1.retrievals rid).index ≠ -1 ∧
        (getR s1.retrievals rid).priority < priority) := by
      intro h
      have h2 := h.2
      rw [hf6] at h2
      have h3 : fb.priority = priority := rfl
      omega
    rw [htpri, if_neg hno, hf6]
    rfl
  · rw [htio, hf7]
    rfl
  · exact (hafix rid).mpr (Or.inr rfl)
  · exact index_nonneg_of_mem
      ⟨(requestTail s1 rid priority bv).1.retrievals, (requestTail s1 rid priority bv).1.arr⟩
      htacc rid ((hafix rid).mpr (Or.inr rfl))

/-! ## Characterizing Request -/

theorem Request_closed (s : brqState) (p : Int) (k ptr bv : Nat)
    (h : s.doneClosed = true) :
    Request s p k ptr bv =
      ({ s with nextCh := s.nextCh + 1, events := s.events ++ [.send s.nextCh ioEOF] },
       s.nextCh) := by
  simp only [Request, h]
  rfl

theorem Request_open_ret (s : brqState) (p : Int) (k ptr bv : Nat)
    (h : s.doneClosed = false) (s1 : brqState) (ch : Nat)
    (hit : requestIter s p k ptr bv = (s1, some ch)) :
    Request s p k ptr bv = (s1, ch) := by
  simp only [Request, h, hit]
  rfl

theorem Request_open_retry (s : brqState) (p : Int) (k ptr bv : Nat)
    (h : s.doneClosed = false) (s1 s2 : brqState) (ch : Nat)
    (hit1 : requestIter s p k ptr bv = (s1, none))
    (hit2 : requestIter s1 p k ptr bv = (s2, some ch)) :
    Request s p k ptr bv = (s2, ch) := by
  simp only [Request, h, hit1, hit2]
  rfl

/-! ## The queue invariant -/

theorem invQ_initState (numWorkers : Nat) : InvQ (initState numWorkers) := by
  refine ⟨?_, ?_, ?_, ?_, ?_⟩
  · intro x hx
    cases hx
  · intro k hk
    cases hk
  · exact List.nodup_nil
  · intro p rid h
    cases h
  · intro p rid h
    cases h

/-- Finalization: deleting the registry entry at the retrieval's locator
and marking its cancel function called preserves the invariant. -/
theorem finalize_invQ (s : brqState) (rid : Nat) (block err : Option Nat)
    (hinv : InvQ s) : InvQ (FinalizeRequest s rid block err) := by
  obtain ⟨hv, hacc, hnd, hcons, hreg⟩ := hinv
  have hF : FinalizeRequest s rid block err = { s with
      ptrs := erasePtr s.ptrs (getR s.retrievals rid).blockPtr
      retrievals := s.retrievals.set rid { getR s.retrievals rid with cancelCalled := true }
      events := s.events ++ finalizeEvents (getR s.retrievals rid).requests block err } := by
    simp only [FinalizeRequest]
  rw [hF]
  set st' := s.retrievals.set rid { getR s.retrievals rid with cancelCalled := true }
    with st'def
  have hlen : st'.length = s.retrievals.length := List.length_set s.retrievals rid _
  have hg : ∀ x, getR st' x =
      if x = rid ∧ rid < s.retrievals.length then
        { getR s.retrievals rid with cancelCalled := true }
      else getR s.retrievals x := fun x => getR_set s.retrievals rid _ x
  have hidx : ∀ x, (getR st' x).index = (getR s.retrievals x).index := by
    intro x
    rw [hg]
    split
    · rename_i h
      rw [h.1]
    · rfl
  have hbp : ∀ x, (getR st' x).blockPtr = (getR s.retrievals x).blockPtr := by
    intro x
    rw [hg]
    split
    · rename_i h
      rw [h.1]
    · rfl
  refine ⟨validH_transfer _ _ _ hlen hv, hacc_transfer _ _ _ hidx hacc,
    keysNodup_erasePtr _ _ hnd, ?_, ?_⟩
  · intro p rid' hl
    rw [lookupPtr_erasePtr] at hl
    split at hl
    · cases hl
    · have h1 := hcons p rid' hl
      have h2 := h1.1
      refine ⟨?_, ?_⟩
      · show rid' < st'.length
        omega
      · rw [hbp]
        exact h1.2
  · intro p rid' hl hix
    rw [lookupPtr_erasePtr] at hl
    split at hl
    · cases hl
    · have h1 := hreg p rid' hl
      rw [hidx] at hix
      exact h1 hix

/-- Deleting any registry key preserves the invariant. -/
theorem erase_invQ (s : brqState) (key : Nat) (hinv : InvQ s) :
    InvQ { s with ptrs := erasePtr s.ptrs key } := by
  obtain ⟨hv, hacc, hnd, hcons, hreg⟩ := hinv
  refine ⟨hv, hacc, keysNodup_erasePtr _ _ hnd, ?_, ?_⟩
  · intro p rid hl
    rw [show ({ s with ptrs := erasePtr s.ptrs key } : brqState).ptrs =
      erasePtr s.ptrs key from rfl, lookupPtr_erasePtr] at hl
    split at hl
    · cases hl
    · exact hcons p rid hl
  · intro p rid hl
    rw [show ({ s with ptrs := erasePtr s.ptrs key } : brqState).ptrs =
      erasePtr s.ptrs key from rfl, lookupPtr_erasePtr] at hl
    split at hl
    · cases hl
    · exact hreg p rid hl

/-- The attach branch (appending a waiter to an existing, still-mergeable
retrieval) preserves the invariant. -/
theorem attach_invQ (s : brqState) (rid0 : Nat) (p : Int) (bv : Nat) (ptr : Nat)
    (hsome : lookupPtr s.ptrs ptr = some rid0) (hinv : InvQ s) :
    InvQ (requestTail s rid0 p bv).1 := by
  obtain ⟨hv, hacc, hnd, hcons, hreg⟩ := hinv
  obtain ⟨ht2, htptrs, htic, htdone, htatt, htclaimed, htevents, htws, htnw, htnc,
    htlen, htalen, htmem, htv, htacc, htnoidx, htidx, htbp, htkmd, htcc, htcanc, htio,
    htreq, htpri⟩ :=
    requestTail_spec s rid0 p bv hv hacc (hreg ptr rid0 hsome)
  refine ⟨htv, htacc, by rw [htptrs]; exact hnd, ?_, ?_⟩
  · intro q rid hl
    rw [htptrs] at hl
    have h1 := hcons q rid hl
    refine ⟨by omega, ?_⟩
    by_cases he : rid = rid0
    · rw [he, htbp]
      exact he ▸ h1.2
    · have := htnoidx rid he
      rw [(fields_of_noIdx_eq this).1]
      exact h1.2
  · intro q rid hl hix
    rw [htptrs] at hl
    rcases htidx rid with h | h
    · rw [h] at hix
      exact (htmem rid).mpr (hreg q rid hl hix)
    · exact h.1

/-- The creation branch run from a state with no entry for the locator
preserves the invariant. -/
theorem create_invQ (s : brqState) (p : Int) (k ptr bv : Nat)
    (hnone : lookupPtr s.ptrs ptr = none) (hinv : InvQ s) :
    InvQ (requestIter s p k ptr bv).1 := by
  obtain ⟨hv, hacc, hnd, hcons, hreg⟩ := hinv
  obtain ⟨h2, hptrs, hic, hdone, hatt, hclaimed, hevents, hws, hnw, hnc, hlen, halen,
    hmem, hv', hacc', hnoidx, hidx, hbp, hkmd, hcc, hcanc, hrq, hpri, hio,
    hmemrid, hnn⟩ :=
    requestIter_create_spec s p k ptr bv hnone hv hacc
  refine ⟨hv', hacc', by rw [hptrs]; exact keysNodup_insertPtr _ _ _ hnd, ?_, ?_⟩
  · intro q rid hl
    rw [hptrs, lookupPtr_insertPtr] at hl
    split at hl
    · rename_i hq
      cases hl
      refine ⟨by omega, ?_⟩
      rw [hq]
      exact hbp
    · have h1 := hcons q rid hl
      have hne : rid ≠ s.retrievals.length := by omega
      refine ⟨by omega, ?_⟩
      rw [(fields_of_noIdx_eq (hnoidx rid hne)).1]
      exact h1.2
  · intro q rid hl hix
    rw [hptrs, lookupPtr_insertPtr] at hl
    split at hl
    · cases hl
      exact hmemrid
    · have h1 := hcons q rid hl
      have hne : rid ≠ s.retrievals.length := by omega
      rcases hidx rid hne with h | h
      · rw [h] at hix
        exact (hmem rid).mpr (Or.inl (hreg q rid hl hix))
      · exact h.1

/-! ## Characterizing the matching attempts -/

theorem attemptDrain_noop (s : brqState)
    (h : ¬(s.doneClosed = true ∧ 0 < s.attempts)) : attemptDrain s = s := by
  simp only [attemptDrain]
  rw [if_neg h]

theorem attemptDrain_empty (s : brqState) (hd : s.doneClosed = true)
    (ha : 0 < s.attempts) (he : s.arr.length = 0) :
    attemptDrain s = { s with attempts := s.attempts - 1 } := by
  have hpop : heapPop ⟨s.retrievals, s.arr⟩ = (⟨s.retrievals, s.arr⟩, none) := by
    unfold heapPop
    rw [if_pos he]
  simp only [attemptDrain]
  rw [if_pos ⟨hd, ha⟩]
  rw [show heapPop ⟨({ s with attempts := s.attempts - 1 } : brqState).retrievals,
    ({ s with attempts := s.attempts - 1 } : brqState).arr⟩ =
    (⟨s.retrievals, s.arr⟩, none) from hpop]

theorem attemptDrain_pop (s : brqState) (hd : s.doneClosed = true)
    (ha : 0 < s.attempts) (hinv : InvQ s) (hne : s.arr.length ≠ 0) :
    ∃ hs', heapPop ⟨s.retrievals, s.arr⟩ = (hs', some (s.arr.getD 0 0)) ∧
      attemptDrain s = FinalizeRequest { s with
        retrievals := hs'.st
        arr := hs'.arr
        attempts := s.attempts - 1 } (s.arr.getD 0 0) none ioEOF := by
  obtain ⟨hs', hpop, _⟩ := heapPop_spec ⟨s.retrievals, s.arr⟩ hinv.2.1 hinv.1 hne
  refine ⟨hs', hpop, ?_⟩
  simp only [attemptDrain]
  rw [if_pos ⟨hd, ha⟩]
  rw [show heapPop ⟨({ s with attempts := s.attempts - 1 } : brqState).retrievals,
    ({ s with attempts := s.attempts - 1 } : brqState).arr⟩ =
    (hs', some (s.arr.getD 0 0)) from hpop]

theorem attemptMatch_noop (s : brqState)
    (h : ¬(0 < s.workerSlots ∧ 0 < s.attempts)) : attemptMatch s = s := by
  simp only [attemptMatch]
  rw [if_neg h]

theorem attemptMatch_eq (s : brqState) (hw : 0 < s.workerSlots)
    (ha : 0 < s.attempts) :
    attemptMatch s = { s with
      attempts := s.attempts - 1
      workerSlots := s.workerSlots - 1
      retrievals := (heapPop ⟨s.retrievals, s.arr⟩).1.st
      arr := (heapPop ⟨s.retrievals, s.arr⟩).1.arr
      claimed := s.claimed ++ (heapPop ⟨s.retrievals, s.arr⟩).2.toList
      events := s.events ++ [.deliver (heapPop ⟨s.retrievals, s.arr⟩).2] } := by
  simp only [attemptMatch]
  rw [if_pos ⟨hw, ha⟩]

/-- A pop step (shared by the drain and match paths) preserves the
invariant on the store/heap/registry triple. -/
theorem pop_invQ (s : brqState) (hinv : InvQ s) (hne : s.arr.length ≠ 0)
    (hs' : HS) (hpop : heapPop ⟨s.retrievals, s.arr⟩ = (hs', some (s.arr.getD 0 0)))
    (s2 : brqState) (h2r : s2.retrievals = hs'.st) (h2a : s2.arr = hs'.arr)
    (h2p : s2.ptrs = s.ptrs) : InvQ s2 := by
  obtain ⟨hv, hacc, hnd, hcons, hreg⟩ := hinv
  obtain ⟨hs'', hpop2, hlenA, hlenS, hmem, hacc', hv', hnoidx, hidxr, hidxo⟩ :=
    heapPop_spec ⟨s.retrievals, s.arr⟩ hacc hv hne
  rw [hpop] at hpop2
  have hseq : hs' = hs'' := by
    have := congrArg Prod.fst hpop2
    exact this
  subst hseq
  have hProj : (⟨s.retrievals, s.arr⟩ : HS).st.length = s.retrievals.length := rfl
  refine ⟨?_, ?_, by rw [h2p]; exact hnd, ?_, ?_⟩
  · rw [show (⟨s2.retrievals, s2.arr⟩ : HS) = hs' from by rw [h2r, h2a]]
    exact hv'
  · rw [show (⟨s2.retrievals, s2.arr⟩ : HS) = hs' from by rw [h2r, h2a]]
    exact hacc'
  · intro q rid hl
    rw [h2p] at hl
    have h1 := hcons q rid hl
    have h3 := h1.1
    refine ⟨?_, ?_⟩
    · rw [h2r]
      show rid < hs'.st.length
      omega
    · rw [h2r, (fields_of_noIdx_eq (hnoidx rid)).1]
      exact h1.2
  · intro q rid hl hix
    rw [h2p] at hl
    rw [h2r] at hix
    rw [h2a]
    by_cases he : rid = s.arr.getD 0 0
    · rw [he] at hix
      exact absurd hidxr hix
    · rcases hidxo rid he with h | h
      · rw [h] at hix
        have := hreg q rid hl hix
        exact (hmem rid).mpr ⟨this, he⟩
      · exact h.1

/-! ## The invariant holds in every reachable state -/

theorem invQ_applyOp (s : brqState) (op : Op) (hinv : InvQ s) : InvQ (applyOp s op) := by
  cases op with
  | req p k ptr bv =>
    show InvQ (Request s p k ptr bv).1
    by_cases hd : s.doneClosed = true
    · rw [Request_closed s p k ptr bv hd]
      exact hinv
    · have hd' : s.doneClosed = false := by
        cases h : s.doneClosed
        · rfl
        · exact absurd h hd
      cases hcase : lookupPtr s.ptrs ptr with
      | none =>
        have hspec := requestIter_create_spec s p k ptr bv hcase hinv.1 hinv.2.1
        have hit : requestIter s p k ptr bv =
            ((requestIter s p k ptr bv).1, some s.nextCh) := by
          have h1 : requestIter s p k ptr bv =
              ((requestIter s p k ptr bv).1, (requestIter s p k ptr bv).2) := rfl
          rw [h1, hspec.1]
        rw [Request_open_ret s p k ptr bv hd' _ _ hit]
        exact create_invQ s p k ptr bv hcase hinv
      | some rid0 =>
        cases hcc : (getR s.retrievals rid0).ctxCanceled with
        | false =>
          have hit := requestIter_attach s p k ptr bv rid0 hcase hcc
          rw [Request_open_ret s p k ptr bv hd' _ _ hit]
          exact attach_invQ s rid0 p bv ptr hcase hinv
        | true =>
          have hit1 := requestIter_cancel s p k ptr bv rid0 hcase hcc
          set s' : brqState :=
            { s with ptrs := erasePtr s.ptrs (getR s.retrievals rid0).blockPtr }
            with s'def
          have hinv' : InvQ s' := erase_invQ s _ hinv
          have hbp : (getR s.retrievals rid0).blockPtr = ptr :=
            (hinv.2.2.2.1 ptr rid0 hcase).2
          have hnone' : lookupPtr s'.ptrs ptr = none := by
            show lookupPtr (erasePtr s.ptrs (getR s.retrievals rid0).blockPtr) ptr = none
            rw [hbp, lookupPtr_erasePtr, if_pos rfl]
          have hspec := requestIter_create_spec s' p k ptr bv hnone' hinv'.1 hinv'.2.1
          have hit2 : requestIter s' p k ptr bv =
              ((requestIter s' p k ptr bv).1, some s'.nextCh) := by
            have h1 : requestIter s' p k ptr bv =
                ((requestIter s' p k ptr bv).1, (requestIter s' p k ptr bv).2) := rfl
            rw [h1, hspec.1]
          rw [Request_open_retry s p k ptr bv hd' s' _ _ hit1 hit2]
          exact create_invQ s' p k ptr bv hnone' hinv'
  | cancelAll rid =>
    obtain ⟨hv, hacc, hnd, hcons, hreg⟩ := hinv
    show InvQ { s with retrievals :=
      (s.retrievals.set rid { getR s.retrievals rid with ctxCanceled := true }) }
    set st' := s.retrievals.set rid { getR s.retrievals rid with ctxCanceled := true }
      with st'def
    have hlen : st'.length = s.retrievals.length := List.length_set _ _ _
    have hg : ∀ x, getR st' x =
        if x = rid ∧ rid < s.retrievals.length then
          { getR s.retrievals rid with ctxCanceled := true }
        else getR s.retrievals x := fun x => getR_set _ _ _ x
    have hidx : ∀ x, (getR st' x).index = (getR s.retrievals x).index := by
      intro x
      rw [hg]
      split
      · rename_i h
        rw [h.1]
      · rfl
    have hbp : ∀ x, (getR st' x).blockPtr = (getR s.retrievals x).blockPtr := by
      intro x
      rw [hg]
      split
      · rename_i h
        rw [h.1]
      · rfl
    refine ⟨validH_transfer _ _ _ hlen hv, hacc_transfer _ _ _ hidx hacc, hnd, ?_, ?_⟩
    · intro q r hl
      have h1 := hcons q r hl
      have h2 := h1.1
      refine ⟨?_, ?_⟩
      · show r < st'.length
        omega
      · rw [hbp]
        exact h1.2
    · intro q r hl hix
      rw [hidx] at hix
      exact hreg q r hl hix
  | workerArrive =>
    show InvQ (if s.workerSlots < s.numWorkers then
      { s with workerSlots := s.workerSlots + 1 } else s)
    split
    · exact hinv
    · exact hinv
  | drain =>
    show InvQ (attemptDrain s)
    by_cases hg : s.doneClosed = true ∧ 0 < s.attempts
    · by_cases he : s.arr.length = 0
      · rw [attemptDrain_empty s hg.1 hg.2 he]
        exact hinv
      · obtain ⟨hs', hpop, heq⟩ := attemptDrain_pop s hg.1 hg.2 hinv he
        rw [heq]
        apply finalize_invQ
        exact pop_invQ s hinv he hs' hpop _ rfl rfl rfl
    · rw [attemptDrain_noop s hg]
      exact hinv
  | matchWorker =>
    show InvQ (attemptMatch s)
    by_cases hg : 0 < s.workerSlots ∧ 0 < s.attempts
    · rw [attemptMatch_eq s hg.1 hg.2]
      by_cases he : s.arr.length = 0
      · have hpop : heapPop ⟨s.retrievals, s.arr⟩ = (⟨s.retrievals, s.arr⟩, none) := by
          unfold heapPop
          rw [if_pos he]
        rw [hpop]
        exact hinv
      · obtain ⟨hs', hpop2, _⟩ := heapPop_spec ⟨s.retrievals, s.arr⟩ hinv.2.1 hinv.1 he
        rw [hpop2]
        exact pop_invQ s hinv he hs' hpop2 _ rfl rfl rfl
    · rw [attemptMatch_noop s hg]
      exact hinv
  | finalize rid block err =>
    show InvQ (if rid ∈ s.claimed ∧ ¬(getR s.retrievals rid).cancelCalled = true then
      FinalizeRequest s rid block err else s)
    split
    · exact finalize_invQ s rid block err hinv
    · exact hinv
  | shutdown =>
    show InvQ (Shutdown s).1
    unfold Shutdown
    split
    · exact hinv
    · exact hinv

theorem invQ_foldl (ops : List Op) : ∀ s, InvQ s → InvQ (ops.foldl applyOp s) := by
  induction ops with
  | nil =>
    intro s h
    exact h
  | cons op t ih =>
    intro s h
    exact ih _ (invQ_applyOp s op h)

/-- Every reachable state of a block retrieval queue satisfies the
invariant. -/
theorem invQ_runOps (nw : Nat) (ops : List Op) : InvQ (runOps nw ops) :=
  invQ_foldl ops _ (invQ_initState nw)

/-! ## The heap ordering -/

theorem hless_true_iff (st : List blockRetrieval) (a b : Nat) :
    hless st a b = true ↔
      ((getR st b).priority < (getR st a).priority ∨
       ((getR st a).priority = (getR st b).priority ∧
        (getR st a).insertionOrder < (getR st b).insertionOrder)) := by
  simp [hless]

theorem hless_neg_trans (st : List blockRetrieval) {a b c : Nat}
    (h1 : hless st a b = false) (h2 : hless st b c = false) :
    hless st a c = false := by
  have e1 := hless_true_iff st a b
  have e2 := hless_true_iff st b c
  have e3 := hless_true_iff st a c
  rw [h1] at e1
  rw [h2] at e2
  cases hq : hless st a c
  · rfl
  · rw [hq] at e3
    simp at e1 e2 e3
    omega

/-- In a heap-ordered array the root is maximal. -/
theorem root_max (hs : HS) (hp : heapProp hs) :
    ∀ k, k < hs.arr.length →
      hless hs.st (hs.arr.getD k 0) (hs.arr.getD 0 0) = false := by
  intro k
  induction k using Nat.strong_induction_on with
  | _ k IH =>
    intro hk
    by_cases h0 : k = 0
    · rw [h0]
      exact hless_self _ _
    · have hpar : (k - 1) / 2 < k := by omega
      have h1 := hp k hk (by omega)
      have h2 := IH ((k - 1) / 2) hpar (by omega)
      exact hless_neg_trans hs.st h1 h2

/-- Pop of a heap-ordered, accurate, valid heap returns an element that no
other heap element sorts strictly before: the highest-priority entry, FIFO
within equal priority. -/
theorem heapPop_max (hs : HS) (hacc : HAcc hs) (hv : ValidH hs) (hp : heapProp hs)
    (hne : hs.arr.length ≠ 0) :
    ∃ hs', heapPop hs = (hs', some (hs.arr.getD 0 0)) ∧
      ∀ x ∈ hs.arr, hless hs.st x (hs.arr.getD 0 0) = false := by
  obtain ⟨hs', hpop, _⟩ := heapPop_spec hs hacc hv hne
  refine ⟨hs', hpop, ?_⟩
  intro x hx
  obtain ⟨k, hk, he⟩ := (mem_iff_getD hs.arr x).mp hx
  rw [← he]
  exact root_max hs hp k hk

/-! ## Attempts never fall behind the heap -/

/-- Each step keeps the number of outstanding matching attempts at least
the heap size: every heap entry was pushed by a creation that scheduled an
attempt, and each consumed attempt pops at most one entry (popping none
only when the heap is already empty). -/
theorem attempts_ge_applyOp (s : brqState) (op : Op) (hinv : InvQ s)
    (h : s.arr.length ≤ s.attempts) :
    (applyOp s op).arr.length ≤ (applyOp s op).attempts := by
  cases op with
  | req p k ptr bv =>
    show (Request s p k ptr bv).1.arr.length ≤ (Request s p k ptr bv).1.attempts
    by_cases hd : s.doneClosed = true
    · rw [Request_closed s p k ptr bv hd]
      exact h
    · have hd' : s.doneClosed = false := by
        cases hx : s.doneClosed
        · rfl
        · exact absurd hx hd
      cases hcase : lookupPtr s.ptrs ptr with
      | none =>
        obtain ⟨h2, hptrs, hic, hdone, hatt, hclaimed, hevents, hws, hnw, hnc, hlen,
          halen, hrest⟩ := requestIter_create_spec s p k ptr bv hcase hinv.1 hinv.2.1
        have hit : requestIter s p k ptr bv =
            ((requestIter s p k ptr bv).1, some s.nextCh) := by
          have h1 : requestIter s p k ptr bv =
              ((requestIter s p k ptr bv).1, (requestIter s p k ptr bv).2) := rfl
          rw [h1, h2]
        rw [Request_open_ret s p k ptr bv hd' _ _ hit]
        rw [halen, hatt]
        omega
      | some rid0 =>
        cases hcc : (getR s.retrievals rid0).ctxCanceled with
        | false =>
          have hit := requestIter_attach s p k ptr bv rid0 hcase hcc
          rw [Request_open_ret s p k ptr bv hd' _ _ hit]
          obtain ⟨ht2, htptrs, htic, htdone, htatt, htclaimed, htevents, htws, htnw,
            htnc, htlen, htalen, htrest⟩ :=
            requestTail_spec s rid0 p bv hinv.1 hinv.2.1 (hinv.2.2.2.2 ptr rid0 hcase)
          rw [htalen, htatt]
          exact h
        | true =>
          have hit1 := requestIter_cancel s p k ptr bv rid0 hcase hcc
          set s' : brqState :=
            { s with ptrs := erasePtr s.ptrs (getR s.retrievals rid0).blockPtr }
            with s'def
          have hinv' : InvQ s' := erase_invQ s _ hinv
          have hbp : (getR s.retrievals rid0).blockPtr = ptr :=
            (hinv.2.2.2.1 ptr rid0 hcase).2
          have hnone' : lookupPtr s'.ptrs ptr = none := by
            show lookupPtr (erasePtr s.ptrs (getR s.retrievals rid0).blockPtr) ptr = none
            rw [hbp, lookupPtr_erasePtr, if_pos rfl]
          obtain ⟨h2, hptrs, hic, hdone, hatt, hclaimed, hevents, hws, hnw, hnc, hlen,
            halen, hrest⟩ := requestIter_create_spec s' p k ptr bv hnone' hinv'.1 hinv'.2.1
          have hit2 : requestIter s' p k ptr bv =
              ((requestIter s' p k ptr bv).1, some s'.nextCh) := by
            have h1 : requestIter s' p k ptr bv =
                ((requestIter s' p k ptr bv).1, (requestIter s' p k ptr bv).2) := rfl
            rw [h1, h2]
          rw [Request_open_retry s p k ptr bv hd' s' _ _ hit1 hit2]
          rw [halen, hatt]
          have ha' : s'.arr.length = s.arr.length := rfl
          have ha2 : s'.attempts = s.attempts := rfl
          omega
  | cancelAll rid =>
    exact h
  | workerArrive =>
    show (if s.workerSlots < s.numWorkers then
        { s with workerSlots := s.workerSlots + 1 } else s).arr.length ≤
      (if s.workerSlots < s.numWorkers then
        { s with workerSlots := s.workerSlots + 1 } else s).attempts
    split
    · exact h
    · exact h
  | drain =>
    show (attemptDrain s).arr.length ≤ (attemptDrain s).attempts
    by_cases hg : s.doneClosed = true ∧ 0 < s.attempts
    · by_cases he : s.arr.length = 0
      · rw [attemptDrain_empty s hg.1 hg.2 he]
        show s.arr.length ≤ s.attempts - 1
        omega
      · obtain ⟨hs', hpop, heq⟩ := attemptDrain_pop s hg.1 hg.2 hinv he
        obtain ⟨hs'', hpop2, hlenA, _⟩ := heapPop_spec ⟨s.retrievals, s.arr⟩
          hinv.2.1 hinv.1 he
        rw [hpop] at hpop2
        have hseq : hs' = hs'' := congrArg Prod.fst hpop2
        subst hseq
        rw [heq]
        show hs'.arr.length ≤ s.attempts - 1
        have hga := hg.2
        have hArr : (⟨s.retrievals, s.arr⟩ : HS).arr.length = s.arr.length := rfl
        omega
    · rw [attemptDrain_noop s hg]
      exact h
  | matchWorker =>
    show (attemptMatch s).arr.length ≤ (attemptMatch s).attempts
    by_cases hg : 0 < s.workerSlots ∧ 0 < s.attempts
    · rw [attemptMatch_eq s hg.1 hg.2]
      by_cases he : s.arr.length = 0
      · have hpop : heapPop ⟨s.retrievals, s.arr⟩ = (⟨s.retrievals, s.arr⟩, none) := by
          unfold heapPop
          rw [if_pos he]
        rw [hpop]
        show s.arr.length ≤ s.attempts - 1
        omega
      · obtain ⟨hs', hpop2, hlenA, _⟩ := heapPop_spec ⟨s.retrievals, s.arr⟩
          hinv.2.1 hinv.1 he
        rw [hpop2]
        show hs'.arr.length ≤ s.attempts - 1
        have hga := hg.2
        have hArr : (⟨s.retrievals, s.arr⟩ : HS).arr.length = s.arr.length := rfl
        omega
    · rw [attemptMatch_noop s hg]
      exact h
  | finalize rid block err =>
    show (if rid ∈ s.claimed ∧ ¬(getR s.retrievals rid).cancelCalled = true then
        FinalizeRequest s rid block err else s).arr.length ≤
      (if rid ∈ s.claimed ∧ ¬(getR s.retrievals rid).cancelCalled = true then
        FinalizeRequest s rid block err else s).attempts
    split
    · exact h
    · exact h
  | shutdown =>
    show (Shutdown s).1.arr.length ≤ (Shutdown s).1.attempts
    unfold Shutdown
    split
    · exact h
    · exact h

theorem attempts_ge_foldl (ops : List Op) :
    ∀ s, InvQ s → s.arr.length ≤ s.attempts →
      (ops.foldl applyOp s).arr.length ≤ (ops.foldl applyOp s).attempts := by
  induction ops with
  | nil =>
    intro s _ h
    exact h
  | cons op t ih =>
    intro s hinv h
    exact ih _ (invQ_applyOp s op hinv) (attempts_ge_applyOp s op hinv h)

theorem attempts_ge_runOps (nw : Nat) (ops : List Op) :
    (runOps nw ops).arr.length ≤ (runOps nw ops).attempts :=
  attempts_ge_foldl ops _ (invQ_initState nw) (Nat.le_refl 0)

/-! ## Insertion order is assigned once -/

theorem insOrder_finalize (s : brqState) (r0 : Nat) (b e : Option Nat) (x : Nat) :
    (getR (FinalizeRequest s r0 b e).retrievals x).insertionOrder =
      (getR s.retrievals x).insertionOrder := by
  show (getR (s.retrievals.set r0
    { getR s.retrievals r0 with cancelCalled := true }) x).insertionOrder = _
  rw [getR_set]
  split
  · rename_i h
    rw [h.1]
  · rfl

/-- No operation ever rewrites the insertion order of an existing
retrieval: it is assigned once, at creation. -/
theorem insertionOrder_applyOp (s : brqState) (op : Op) (hinv : InvQ s) (rid : Nat)
    (hr : rid < s.retrievals.length) :
    (getR (applyOp s op).retrievals rid).insertionOrder =
      (getR s.retrievals rid).insertionOrder := by
  cases op with
  | req p k ptr bv =>
    show (getR (Request s p k ptr bv).1.retrievals rid).insertionOrder = _
    by_cases hd : s.doneClosed = true
    · rw [Request_closed s p k ptr bv hd]
    · have hd' : s.doneClosed = false := by
        cases hx : s.doneClosed
        · rfl
        · exact absurd hx hd
      cases hcase : lookupPtr s.ptrs ptr with
      | none =>
        obtain ⟨h2, hptrs, hic, hdone, hatt, hclaimed, hevents, hws, hnw, hnc, hlen,
          halen, hmem, hv', hacc', hnoidx, hrest⟩ :=
          requestIter_create_spec s p k ptr bv hcase hinv.1 hinv.2.1
        have hit : requestIter s p k ptr bv =
            ((requestIter s p k ptr bv).1, some s.nextCh) := by
          have h1 : requestIter s p k ptr bv =
              ((requestIter s p k ptr bv).1, (requestIter s p k ptr bv).2) := rfl
          rw [h1, h2]
        rw [Request_open_ret s p k ptr bv hd' _ _ hit]
        exact (fields_of_noIdx_eq (hnoidx rid (by omega))).2.2.2.2.2.2
      | some rid0 =>
        cases hcc : (getR s.retrievals rid0).ctxCanceled with
        | false =>
          have hit := requestIter_attach s p k ptr bv rid0 hcase hcc
          rw [Request_open_ret s p k ptr bv hd' _ _ hit]
          obtain ⟨ht2, htptrs, htic, htdone, htatt, htclaimed, htevents, htws, htnw,
            htnc, htlen, htalen, htmem, htv, htacc, htnoidx, htidx, htbp, htkmd, htcc2,
            htcanc, htio, htreq, htpri⟩ :=
            requestTail_spec s rid0 p bv hinv.1 hinv.2.1 (hinv.2.2.2.2 ptr rid0 hcase)
          by_cases he : rid = rid0
          · rw [he]
            exact htio
          · exact (fields_of_noIdx_eq (htnoidx rid he)).2.2.2.2.2.2
        | true =>
          have hit1 := requestIter_cancel s p k ptr bv rid0 hcase hcc
          set s' : brqState :=
            { s with ptrs := erasePtr s.ptrs (getR s.retrievals rid0).blockPtr }
            with s'def
          have hinv' : InvQ s' := erase_invQ s _ hinv
          have hbp : (getR s.retrievals rid0).blockPtr = ptr :=
            (hinv.2.2.2.1 ptr rid0 hcase).2
          have hnone' : lookupPtr s'.ptrs ptr = none := by
            show lookupPtr (erasePtr s.ptrs (getR s.retrievals rid0).blockPtr) ptr = none
            rw [hbp, lookupPtr_erasePtr, if_pos rfl]
          obtain ⟨h2, hptrs, hic, hdone, hatt, hclaimed, hevents, hws, hnw, hnc, hlen,
            halen, hmem, hv', hacc', hnoidx, hrest⟩ :=
            requestIter_create_spec s' p k ptr bv hnone' hinv'.1 hinv'.2.1
          have hit2 : requestIter s' p k ptr bv =
              ((requestIter s' p k ptr bv).1, some s'.nextCh) := by
            have h1 : requestIter s' p k ptr bv =
                ((requestIter s' p k ptr bv).1, (requestIter s' p k ptr bv).2) := rfl
            rw [h1, h2]
          rw [Request_open_retry s p k ptr bv hd' s' _ _ hit1 hit2]
          have hr' : rid < s'.retrievals.length := hr
          exact (fields_of_noIdx_eq (hnoidx rid (by omega))).2.2.2.2.2.2
  | cancelAll r0 =>
    show (getR (s.retrievals.set r0
      { getR s.retrievals r0 with ctxCanceled := true }) rid).insertionOrder = _
    rw [getR_set]
    split
    · rename_i h
      rw [h.1]
    · rfl
  | workerArrive =>
    show (getR (if s.workerSlots < s.numWorkers then
        { s with workerSlots := s.workerSlots + 1 } else s).retrievals rid).insertionOrder
      = _
    split
    · rfl
    · rfl
  | drain =>
    show (getR (attemptDrain s).retrievals rid).insertionOrder = _
    by_cases hg : s.doneClosed = true ∧ 0 < s.attempts
    · by_cases he : s.arr.length = 0
      · rw [attemptDrain_empty s hg.1 hg.2 he]
      · obtain ⟨hs', hpop, heq⟩ := attemptDrain_pop s hg.1 hg.2 hinv he
        obtain ⟨hs'', hpop2, hlenA, hlenS, hmem, hacc', hv', hnoidx, hrest⟩ :=
          heapPop_spec ⟨s.retrievals, s.arr⟩ hinv.2.1 hinv.1 he
        rw [hpop] at hpop2
        have hseq : hs' = hs'' := congrArg Prod.fst hpop2
        subst hseq
        rw [heq, insOrder_finalize]
        show (getR hs'.st rid).insertionOrder = _
        exact (fields_of_noIdx_eq (hnoidx rid)).2.2.2.2.2.2
    · rw [attemptDrain_noop s hg]
  | matchWorker =>
    show (getR (attemptMatch s).retrievals rid).insertionOrder = _
    by_cases hg : 0 < s.workerSlots ∧ 0 < s.attempts
    · rw [attemptMatch_eq s hg.1 hg.2]
      by_cases he : s.arr.length = 0
      · have hpop : heapPop ⟨s.retrievals, s.arr⟩ = (⟨s.retrievals, s.arr⟩, none) := by
          unfold heapPop
          rw [if_pos he]
        rw [hpop]
      · obtain ⟨hs', hpop2, hlenA, hlenS, hmem, hacc', hv', hnoidx, hrest⟩ :=
          heapPop_spec ⟨s.retrievals, s.arr⟩ hinv.2.1 hinv.1 he
        rw [hpop2]
        show (getR hs'.st rid).insertionOrder = _
        exact (fields_of_noIdx_eq (hnoidx rid)).2.2.2.2.2.2
    · rw [attemptMatch_noop s hg]
  | finalize r0 block err =>
    show (getR (if r0 ∈ s.claimed ∧ ¬(getR s.retrievals r0).cancelCalled = true then
      FinalizeRequest s r0 block err else s).retrievals rid).insertionOrder = _
    split
    · rw [insOrder_finalize]
    · rfl
  | shutdown =>
    show (getR (Shutdown s).1.retrievals rid).insertionOrder = _
    unfold Shutdown
    split
    · rfl
    · rfl

/-! ## Finalization events -/

theorem sendsOf_finalizeEvents (reqs : List blockRetrievalRequest)
    (block err : Option Nat) :
    sendsOf (finalizeEvents reqs block err) = reqs.map (fun r => (r.doneCh, err)) := by
  induction reqs with
  | nil => rfl
  | cons r t ih =>
    cases block with
    | none =>
      show (r.doneCh, err) :: sendsOf (finalizeEvents t none err) = _
      rw [ih]
      rfl
    | some b =>
      show (r.doneCh, err) :: sendsOf (finalizeEvents t (some b) err) = _
      rw [ih]
      rfl

theorem finalizeEvents_none (reqs : List blockRetrievalRequest) (err : Option Nat) :
    finalizeEvents reqs none err = reqs.map (fun r => .send r.doneCh err) := by
  induction reqs with
  | nil => rfl
  | cons r t ih =>
    show Ev.send r.doneCh err :: finalizeEvents t none err = _
    rw [ih]
    rfl

theorem finalizeEvents_some_getD (reqs : List blockRetrievalRequest) (b : Nat)
    (err : Option Nat) :
    ∀ i, i < reqs.length →
      (finalizeEvents reqs (some b) err).getD (2 * i) (.deliver none) =
        .copy (reqs.getD i default).blockVar b ∧
      (finalizeEvents reqs (some b) err).getD (2 * i + 1) (.deliver none) =
        .send (reqs.getD i default).doneCh err := by
  induction reqs with
  | nil =>
    intro i hi
    exact absurd hi (Nat.not_lt_zero i)
  | cons r t ih =>
    intro i hi
    cases i with
    | zero => exact ⟨rfl, rfl⟩
    | succ j =>
      have e1 : 2 * (j + 1) = 2 * j + 1 + 1 := by omega
      have e2 : 2 * (j + 1) + 1 = 2 * j + 1 + 1 + 1 := by omega
      have hj : j < t.length := by
        have := hi
        simp only [List.length_cons] at this
        omega
      have hfe : finalizeEvents (r :: t) (some b) err =
          Ev.copy r.blockVar b :: Ev.send r.doneCh err ::
            finalizeEvents t (some b) err := rfl
      constructor
      · rw [hfe, e1, List.getD_cons_succ, List.getD_cons_succ]
        exact (ih j hj).1
      · rw [hfe, e2, List.getD_cons_succ, List.getD_cons_succ]
        exact (ih j hj).2

/-! ## Shutdown call sequences -/

theorem shutdownTimes_closed (n : Nat) :
    ∀ s : brqState, s.doneClosed = true → shutdownTimes n s = (s, 0) := by
  induction n with
  | zero =>
    intro s _
    rfl
  | succ m ih =>
    intro s h
    have h1 : Shutdown s = (s, false) := by
      unfold Shutdown
      rw [if_pos h]
    show ((shutdownTimes m (Shutdown s).1).1,
      (if (Shutdown s).2 then 1 else 0) + (shutdownTimes m (Shutdown s).1).2) = (s, 0)
    rw [h1]
    show ((shutdownTimes m s).1, (if false then 1 else 0) + (shutdownTimes m s).2) = (s, 0)
    rw [ih s h]
    rfl

/-! ## The claims -/

/-- C10: in the quota-usage cache, `getAndCache` is atomic with respect to
the cached value: when `GetUserQuotaInfo` fails, the whole state — in
particular `cached` — is left unchanged and the error is returned, and a
blocking `Get` (cached data older than the tolerance) then returns
`(-1, -1, err)`; on success the cache is overwritten with the freshly
fetched usage, limit and current timestamp. -/
theorem getAndCache_atomic :
    (∀ (e : Nat) (now : Int) (q : ECQUState),
      getAndCache (.error e) now q = (q, .error e)) ∧
    (∀ (e : Nat) (nowG nowC tol : Int) (q : ECQUState),
      tol < nowG - q.cached.timestamp →
        ECQUGet (.error e) nowG nowC tol q = (q, (-1, -1, some e))) ∧
    (∀ (info : QuotaInfo) (now : Int) (q : ECQUState),
      getAndCache (.ok info) now q =
        ({ q with cached :=
            { timestamp := now
              usageBytes :=
                match info.Total with
                | some t => lookupBytes t.Bytes UsageWrite
                | none => 0
              limitBytes := info.Limit } },
         .ok
            { timestamp := now
              usageBytes :=
                match info.Total with
                | some t => lookupBytes t.Bytes UsageWrite
                | none => 0
              limitBytes := info.Limit })) := by
  refine ⟨fun e now q => rfl, ?_, fun info now q => rfl⟩
  intro e nowG nowC tol q h
  show (if tol < nowG - q.cached.timestamp then _ else _) = _
  rw [if_pos h]

theorem getAndCache_atomic_witness :
    ((0 : Int) < 10 - (ECQUState.mk false ⟨0, 0, 0⟩).cached.timestamp) ∧
    ECQUGet (.error 1) 10 10 0 (ECQUState.mk false ⟨0, 0, 0⟩) =
      (ECQUState.mk false ⟨0, 0, 0⟩, (-1, -1, some 1)) :=
  ⟨by decide, getAndCache_atomic.2.1 1 10 10 0 (ECQUState.mk false ⟨0, 0, 0⟩) (by decide)⟩

/-- C8: `Shutdown` is idempotent. A second call after any call is a no-op
on the state; a sequence of `n ≥ 1` calls starting from an open queue
closes the intake signal exactly once and leaves the same state as a
single call; and once closed, further calls close nothing and change
nothing. -/
theorem shutdown_idempotent :
    (∀ s : brqState, (Shutdown (Shutdown s).1).1 = (Shutdown s).1) ∧
    (∀ (s : brqState) (n : Nat), 1 ≤ n → s.doneClosed = false →
      shutdownTimes n s = ({ s with doneClosed := true }, 1) ∧
      (shutdownTimes n s).1 = (Shutdown s).1) ∧
    (∀ (s : brqState) (n : Nat), s.doneClosed = true → shutdownTimes n s = (s, 0)) := by
  refine ⟨?_, ?_, fun s n h => shutdownTimes_closed n s h⟩
  · intro s
    by_cases h : s.doneClosed = true
    · have h1 : Shutdown s = (s, false) := by
        unfold Shutdown
        rw [if_pos h]
      rw [h1]
      show (Shutdown s).1 = s
      rw [h1]
    · have h1 : Shutdown s = ({ s with doneClosed := true }, true) := by
        unfold Shutdown
        rw [if_neg h]
      have h2 : Shutdown { s with doneClosed := true } =
          ({ s with doneClosed := true }, false) := by
        unfold Shutdown
        rw [if_pos rfl]
      rw [h1]
      show (Shutdown { s with doneClosed := true }).1 = _
      rw [h2]
  · intro s n hn hopen
    have h1 : Shutdown s = ({ s with doneClosed := true }, true) := by
      unfold Shutdown
      rw [hopen]
      rfl
    obtain ⟨m, rfl⟩ : ∃ m, n = m + 1 := ⟨n - 1, by omega⟩
    have h2 : shutdownTimes (m + 1) s =
        ((shutdownTimes m (Shutdown s).1).1,
         (if (Shutdown s).2 then 1 else 0) + (shutdownTimes m (Shutdown s).1).2) := rfl
    have h3 : ({ s with doneClosed := true } : brqState).doneClosed = true := rfl
    rw [h2, h1]
    rw [shutdownTimes_closed m _ h3]
    constructor
    · rfl
    · rfl

theorem shutdown_idempotent_witness :
    1 ≤ 3 ∧ (initState 2).doneClosed = false ∧
    shutdownTimes 3 (initState 2) = ({ initState 2 with doneClosed := true }, 1) :=
  ⟨by decide, rfl, (shutdown_idempotent.2.1 (initState 2) 3 (by decide) rfl).1⟩

/-- C5: a `Request` issued after shutdown (the intake channel observed
closed) returns a fresh channel pre-loaded with the shutdown error
`io.EOF`, and performs no registry, heap, store, or insertion-counter
mutation: the only new event is the single `send` of `io.EOF` on the
returned channel. -/
theorem request_after_shutdown (s : brqState) (p : Int) (k ptr bv : Nat)
    (h : s.doneClosed = true) :
    Request s p k ptr bv =
      ({ s with nextCh := s.nextCh + 1, events := s.events ++ [.send s.nextCh ioEOF] },
       s.nextCh) ∧
    (Request s p k ptr bv).1.ptrs = s.ptrs ∧
    (Request s p k ptr bv).1.arr = s.arr ∧
    (Request s p k ptr bv).1.retrievals = s.retrievals ∧
    (Request s p k ptr bv).1.insertionCount = s.insertionCount ∧
    (Request s p k ptr bv).1.events =
      s.events ++ [Ev.send (Request s p k ptr bv).2 ioEOF] := by
  have h1 := Request_closed s p k ptr bv h
  rw [h1]
  exact ⟨rfl, rfl, rfl, rfl, rfl, rfl⟩

theorem request_after_shutdown_witness :
    (runOps 1 [.shutdown]).doneClosed = true ∧
    Request (runOps 1 [.shutdown]) 5 0 1 0 =
      ({ runOps 1 [.shutdown] with
          nextCh := (runOps 1 [.shutdown]).nextCh + 1
          events := (runOps 1 [.shutdown]).events ++
            [.send (runOps 1 [.shutdown]).nextCh ioEOF] },
       (runOps 1 [.shutdown]).nextCh) :=
  ⟨rfl, (request_after_shutdown (runOps 1 [.shutdown]) 5 0 1 0 rfl).1⟩

/-- C1: one call to `FinalizeRequest` on a retrieval with K attached
waiters appends exactly the per-waiter events: exactly K sends, one per
waiter, in waiter-list order, each carrying the terminal value (nil error
on success, the error otherwise); when a block result is present, each
waiter's copy-into-target event immediately precedes that waiter's send;
and with the waiters' one-slot channels pairwise distinct, each channel
receives exactly one send, so no send can block. -/
theorem finalizeRequest_exactly_once (s : brqState) (rid : Nat)
    (block err : Option Nat) :
    (FinalizeRequest s rid block err).events =
      s.events ++ finalizeEvents (getR s.retrievals rid).requests block err ∧
    sendsOf (finalizeEvents (getR s.retrievals rid).requests block err) =
      (getR s.retrievals rid).requests.map (fun r => (r.doneCh, err)) ∧
    (sendsOf (finalizeEvents (getR s.retrievals rid).requests block err)).length =
      (getR s.retrievals rid).requests.length ∧
    (∀ b, block = some b → ∀ i, i < (getR s.retrievals rid).requests.length →
      (finalizeEvents (getR s.retrievals rid).requests block err).getD (2 * i)
          (.deliver none) =
        .copy ((getR s.retrievals rid).requests.getD i default).blockVar b ∧
      (finalizeEvents (getR s.retrievals rid).requests block err).getD (2 * i + 1)
          (.deliver none) =
        .send ((getR s.retrievals rid).requests.getD i default).doneCh err) ∧
    (block = none →
      finalizeEvents (getR s.retrievals rid).requests block err =
        (getR s.retrievals rid).requests.map (fun r => .send r.doneCh err)) ∧
    (((getR s.retrievals rid).requests.map (fun r => r.doneCh)).Nodup →
      ∀ r0, r0 ∈ (getR s.retrievals rid).requests →
        ((sendsOf (finalizeEvents (getR s.retrievals rid).requests block err)).map
          Prod.fst).count r0.doneCh = 1) := by
  refine ⟨rfl, sendsOf_finalizeEvents _ block err, ?_, ?_, ?_, ?_⟩
  · rw [sendsOf_finalizeEvents]
    rw [List.length_map]
  · intro b hb i hi
    rw [hb]
    exact finalizeEvents_some_getD (getR s.retrievals rid).requests b err i hi
  · intro hb
    rw [hb]
    exact finalizeEvents_none _ err
  · intro hnd r0 hr0
    rw [sendsOf_finalizeEvents, List.map_map]
    have he : (Prod.fst ∘ fun r : blockRetrievalRequest => (r.doneCh, err)) =
        fun r : blockRetrievalRequest => r.doneCh := rfl
    rw [he]
    exact List.count_eq_one_of_mem hnd (List.mem_map_of_mem _ hr0)

/-- A Request that attaches to an existing, still-mergeable retrieval:
effect on the attached retrieval, preservation of the attach conditions,
and relation to the plain request tail. -/
theorem attach_request_spec (s : brqState) (p : Int) (k ptr bv rid : Nat)
    (hinv : InvQ s) (hd : s.doneClosed = false)
    (hsome : lookupPtr s.ptrs ptr = some rid)
    (hcc : (getR s.retrievals rid).ctxCanceled = false) :
    (Request s p k ptr bv).1 = (requestTail s rid p bv).1 ∧
    InvQ (Request s p k ptr bv).1 ∧
    (Request s p k ptr bv).1.doneClosed = false ∧
    lookupPtr (Request s p k ptr bv).1.ptrs ptr = some rid ∧
    (getR (Request s p k ptr bv).1.retrievals rid).ctxCanceled = false ∧
    ((getR s.retrievals rid).index ≠ -1 →
      (getR (Request s p k ptr bv).1.retrievals rid).index ≠ -1) ∧
    (getR (Request s p k ptr bv).1.retrievals rid).priority =
      (if (getR s.retrievals rid).index ≠ -1 ∧ (getR s.retrievals rid).priority < p
       then p else (getR s.retrievals rid).priority) ∧
    (getR (Request s p k ptr bv).1.retrievals rid).kmd = (getR s.retrievals rid).kmd := by
  have hit := requestIter_attach s p k ptr bv rid hsome hcc
  have heq : (Request s p k ptr bv).1 = (requestTail s rid p bv).1 := by
    rw [Request_open_ret s p k ptr bv hd _ _ hit]
  obtain ⟨ht2, htptrs, htic, htdone, htatt, htclaimed, htevents, htws, htnw,
    htnc, htlen, htalen, htmem, htv, htacc, htnoidx, htidx, htbp, htkmd, htcc2,
    htcanc, htio, htreq, htpri⟩ :=
    requestTail_spec s rid p bv hinv.1 hinv.2.1 (hinv.2.2.2.2 ptr rid hsome)
  rw [heq]
  refine ⟨rfl, ?_, by rw [htdone]; exact hd, by rw [htptrs]; exact hsome,
    by rw [htcc2]; exact hcc, ?_, htpri, htkmd⟩
  · exact attach_invQ s rid p bv ptr hsome hinv
  · intro hix
    rcases htidx rid with h | h
    · rw [h]
      exact hix
    · have h2 := h.2
      omega

theorem priority_fold (k ptr bv rid : Nat) (ps : List Int) :
    ∀ s : brqState, InvQ s → s.doneClosed = false →
      lookupPtr s.ptrs ptr = some rid →
      (getR s.retrievals rid).ctxCanceled = false →
      (getR s.retrievals rid).index ≠ -1 →
      (getR (applyReqs s k ptr bv ps).retrievals rid).priority =
        ps.foldl max (getR s.retrievals rid).priority := by
  induction ps with
  | nil =>
    intro s _ _ _ _ _
    rfl
  | cons p t ih =>
    intro s hinv hd hsome hcc hix
    obtain ⟨heq, hinv', hd', hsome', hcc', hixp, hpri, hkmd⟩ :=
      attach_request_spec s p k ptr bv rid hinv hd hsome hcc
    show (getR (applyReqs (Request s p k ptr bv).1 k ptr bv t).retrievals rid).priority
      = _
    rw [ih (Request s p k ptr bv).1 hinv' hd' hsome' hcc' (hixp hix), hpri]
    have hmax : (if (getR s.retrievals rid).index ≠ -1 ∧
        (getR s.retrievals rid).priority < p then p
        else (getR s.retrievals rid).priority) =
        max (getR s.retrievals rid).priority p := by
      rcases Int.lt_or_le (getR s.retrievals rid).priority p with h | h
      · rw [if_pos ⟨hix, h⟩, max_eq_right h.le]
      · rw [if_neg (fun hc => absurd hc.2 (Int.not_lt.mpr h)), max_eq_left h]
    rw [hmax]
    rfl

theorem finalizeRequest_exactly_once_witness :
    (((getR (runOps 1 [.req 10 0 7 0, .req 10 0 7 1, .workerArrive,
        .matchWorker]).retrievals 0).requests.map (fun r => r.doneCh)).Nodup) ∧
    (⟨0, 0⟩ : blockRetrievalRequest) ∈
      (getR (runOps 1 [.req 10 0 7 0, .req 10 0 7 1, .workerArrive,
        .matchWorker]).retrievals 0).requests ∧
    ((sendsOf (finalizeEvents (getR (runOps 1 [.req 10 0 7 0, .req 10 0 7 1,
        .workerArrive, .matchWorker]).retrievals 0).requests (some 42) none)).map
      Prod.fst).count 0 = 1 :=
  ⟨by decide, by decide,
   (finalizeRequest_exactly_once
      (runOps 1 [.req 10 0 7 0, .req 10 0 7 1, .workerArrive, .matchWorker]) 0
      (some 42) none).2.2.2.2.2 (by decide) ⟨0, 0⟩ (by decide)⟩

/-- C2 (counterexample): after a request for locator 7, the cancellation
of every caller context of retrieval 0, and a second request for locator 7
that takes the cancellation-merge race branch, retrieval 0 is still in the
heap (at position 0, index 0, never claimed) although the registry maps
locator 7 — retrieval 0's own locator — to the fresh retrieval 1 only. So
the heap does not contain precisely the registered-and-unclaimed
retrievals, and a retrieval removed from the registry can still be in the
heap. -/
theorem heap_registry_precise_cex :
    (runOps 1 [.req 1 0 7 0, .cancelAll 0, .req 1 0 7 1]).arr = [0, 1] ∧
    (runOps 1 [.req 1 0 7 0, .cancelAll 0, .req 1 0 7 1]).ptrs = [(7, 1)] ∧
    (getR (runOps 1 [.req 1 0 7 0, .cancelAll 0, .req 1 0 7 1]).retrievals 0).blockPtr
      = 7 ∧
    (getR (runOps 1 [.req 1 0 7 0, .cancelAll 0, .req 1 0 7 1]).retrievals 0).index
      = 0 ∧
    (runOps 1 [.req 1 0 7 0, .cancelAll 0, .req 1 0 7 1]).claimed = [] := by
  decide

/-- C2 (amended): in every reachable state the registry binds each locator
at most once, and every registered retrieval that is unclaimed (heap index
not the sentinel) is in the heap; but the heap may additionally hold
retrievals that the cancellation-merge race already removed from the
registry, so the containment is one-sided, not "precisely". -/
theorem heap_registry_invariant_amended :
    ∀ (nw : Nat) (ops : List Op),
      (((runOps nw ops).ptrs.map Prod.fst).Nodup) ∧
      (∀ p rid, lookupPtr (runOps nw ops).ptrs p = some rid →
        (getR (runOps nw ops).retrievals rid).index ≠ -1 →
        rid ∈ (runOps nw ops).arr) :=
  fun nw ops => ⟨(invQ_runOps nw ops).2.2.1, (invQ_runOps nw ops).2.2.2.2⟩

theorem heap_registry_invariant_amended_witness :
    lookupPtr (runOps 1 [.req 2 0 9 0]).ptrs 9 = some 0 ∧
    (getR (runOps 1 [.req 2 0 9 0]).retrievals 0).index ≠ -1 ∧
    0 ∈ (runOps 1 [.req 2 0 9 0]).arr :=
  ⟨by decide, by decide,
   (heap_registry_invariant_amended 1 [.req 2 0 9 0]).2 9 0 (by decide) (by decide)⟩

/-- C3 (counterexample): locator 7 is requested at priority 10, claimed by
a worker (index reset to the sentinel −1, still registered), then requested
again at priority 50. The stored priority remains 10, not
max(10, 50) = 50: a priority raise after the claim is not recorded in the
stored priority at all. -/
theorem priority_raise_after_claim_cex :
    lookupPtr (runOps 1
      [.req 10 0 7 0, .workerArrive, .matchWorker, .req 50 0 7 1]).ptrs 7 = some 0 ∧
    (getR (runOps 1
      [.req 10 0 7 0, .workerArrive, .matchWorker, .req 50 0 7 1]).retrievals 0).index
      = -1 ∧
    (getR (runOps 1
      [.req 10 0 7 0, .workerArrive, .matchWorker,
        .req 50 0 7 1]).retrievals 0).priority = 10 ∧
    max (10 : Int) 50 = 50 := by
  decide

/-- C3 (amended): an attaching `Request` sets the stored priority to the
requested value exactly when the retrieval is still in the heap (index not
the sentinel) and the request's priority is strictly higher — that is, to
`max(old, new)` while queued — and leaves it entirely unchanged once the
retrieval has been claimed (index = −1); consequently over a sequence of
requests with priorities p1..pN that all find the retrieval still in the
heap, the stored priority is the running maximum `foldl max p0 [p1..pN]`. -/
theorem priority_tracking_amended :
    (∀ (s : brqState) (p : Int) (k ptr bv rid : Nat),
      InvQ s → s.doneClosed = false → lookupPtr s.ptrs ptr = some rid →
      (getR s.retrievals rid).ctxCanceled = false →
      (getR (Request s p k ptr bv).1.retrievals rid).priority =
        (if (getR s.retrievals rid).index ≠ -1 ∧ (getR s.retrievals rid).priority < p
         then p else (getR s.retrievals rid).priority)) ∧
    (∀ (k ptr bv rid : Nat) (ps : List Int) (s : brqState),
      InvQ s → s.doneClosed = false → lookupPtr s.ptrs ptr = some rid →
      (getR s.retrievals rid).ctxCanceled = false →
      (getR s.retrievals rid).index ≠ -1 →
      (getR (applyReqs s k ptr bv ps).retrievals rid).priority =
        ps.foldl max (getR s.retrievals rid).priority) := by
  constructor
  · intro s p k ptr bv rid hinv hd hsome hcc
    exact (attach_request_spec s p k ptr bv rid hinv hd hsome hcc).2.2.2.2.2.2.1
  · intro k ptr bv rid ps s hinv hd hsome hcc hix
    exact priority_fold k ptr bv rid ps s hinv hd hsome hcc hix

theorem priority_tracking_amended_witness :
    lookupPtr (runOps 1 [.req 10 0 7 0]).ptrs 7 = some 0 ∧
    (getR (applyReqs (runOps 1 [.req 10 0 7 0]) 0 7 1 [50, 20]).retrievals 0).priority
      = [(50 : Int), 20].foldl max
          (getR (runOps 1 [.req 10 0 7 0]).retrievals 0).priority :=
  ⟨by decide,
   priority_tracking_amended.2 0 7 1 0 [50, 20] (runOps 1 [.req 10 0 7 0])
     (invQ_runOps 1 [.req 10 0 7 0]) rfl (by decide) (by decide) (by decide)⟩

/-- C9: a `Request` that attaches to an existing retrieval for its locator
leaves the retrieval's stored metadata (`kmd`) unchanged — it remains the
metadata the creating request supplied — and the attaching caller's
metadata argument has no effect on any state: the call's result is
identical for any two metadata values. -/
theorem attach_kmd_frame (s : brqState) (p : Int) (k1 k2 ptr bv rid : Nat)
    (hinv : InvQ s) (hd : s.doneClosed = false)
    (hsome : lookupPtr s.ptrs ptr = some rid)
    (hcc : (getR s.retrievals rid).ctxCanceled = false) :
    Request s p k1 ptr bv = Request s p k2 ptr bv ∧
    (getR (Request s p k1 ptr bv).1.retrievals rid).kmd =
      (getR s.retrievals rid).kmd := by
  have hit1 := requestIter_attach s p k1 ptr bv rid hsome hcc
  have hit2 := requestIter_attach s p k2 ptr bv rid hsome hcc
  have he1 := Request_open_ret s p k1 ptr bv hd _ _ hit1
  have he2 := Request_open_ret s p k2 ptr bv hd _ _ hit2
  refine ⟨by rw [he1, he2], ?_⟩
  exact (attach_request_spec s p k1 ptr bv rid hinv hd hsome hcc).2.2.2.2.2.2.2

theorem attach_kmd_frame_witness :
    lookupPtr (runOps 1 [.req 10 3 7 0]).ptrs 7 = some 0 ∧
    Request (runOps 1 [.req 10 3 7 0]) 4 5 7 1 =
      Request (runOps 1 [.req 10 3 7 0]) 4 6 7 1 ∧
    (getR (Request (runOps 1 [.req 10 3 7 0]) 4 5 7 1).1.retrievals 0).kmd =
      (getR (runOps 1 [.req 10 3 7 0]).retrievals 0).kmd :=
  ⟨by decide,
   (attach_kmd_frame (runOps 1 [.req 10 3 7 0]) 4 5 6 7 1 0
     (invQ_runOps 1 [.req 10 3 7 0]) rfl (by decide) (by decide)).1,
   (attach_kmd_frame (runOps 1 [.req 10 3 7 0]) 4 5 6 7 1 0
     (invQ_runOps 1 [.req 10 3 7 0]) rfl (by decide) (by decide)).2⟩

/-- A request tail always hands back the pre-bump fresh channel. -/
theorem requestTail_snd (s : brqState) (rid : Nat) (p : Int) (bv : Nat) :
    (requestTail s rid p bv).2 = s.nextCh := by
  simp only [requestTail]
  split
  · rfl
  · rfl

/-- C7: the retry loop in `Request` runs at most two iterations. If an
iteration hits the `continue` (the cancellation-merge race), it has
deleted the locator's registry entry, so the second pass — under the same
exclusive lock — observes no entry, creates a fresh retrieval, and
returns; registered retrievals always store their own locator in every
reachable state, which is what makes the deleted key the requested one. -/
theorem request_retry_terminates :
    (∀ (nw : Nat) (ops : List Op) (p rid : Nat),
      lookupPtr (runOps nw ops).ptrs p = some rid →
      (getR (runOps nw ops).retrievals rid).blockPtr = p) ∧
    (∀ (s : brqState) (p : Int) (k ptr bv : Nat) (s1 : brqState),
      (∀ rid, lookupPtr s.ptrs ptr = some rid →
        (getR s.retrievals rid).blockPtr = ptr) →
      requestIter s p k ptr bv = (s1, none) →
      lookupPtr s1.ptrs ptr = none ∧
      (requestIter s1 p k ptr bv).2 = some s1.nextCh) ∧
    (∀ (s : brqState) (p : Int) (k ptr bv : Nat) (s1 : brqState),
      s.doneClosed = false →
      (∀ rid, lookupPtr s.ptrs ptr = some rid →
        (getR s.retrievals rid).blockPtr = ptr) →
      requestIter s p k ptr bv = (s1, none) →
      Request s p k ptr bv = ((requestIter s1 p k ptr bv).1, s1.nextCh)) := by
  have key : ∀ (s : brqState) (p : Int) (k ptr bv : Nat) (s1 : brqState),
      (∀ rid, lookupPtr s.ptrs ptr = some rid →
        (getR s.retrievals rid).blockPtr = ptr) →
      requestIter s p k ptr bv = (s1, none) →
      lookupPtr s1.ptrs ptr = none ∧
      (requestIter s1 p k ptr bv).2 = some s1.nextCh := by
    intro s p k ptr bv s1 hcons hit
    cases hcase : lookupPtr s.ptrs ptr with
    | none =>
      have h1 := requestIter_create s p k ptr bv hcase
      rw [h1] at hit
      cases congrArg Prod.snd hit
    | some rid0 =>
      cases hcc : (getR s.retrievals rid0).ctxCanceled with
      | false =>
        have h1 := requestIter_attach s p k ptr bv rid0 hcase hcc
        rw [h1] at hit
        cases congrArg Prod.snd hit
      | true =>
        have h1 := requestIter_cancel s p k ptr bv rid0 hcase hcc
        rw [h1] at hit
        have hs1 : s1 = { s with
            ptrs := erasePtr s.ptrs (getR s.retrievals rid0).blockPtr } :=
          (congrArg Prod.fst hit).symm
        have hbp : (getR s.retrievals rid0).blockPtr = ptr := hcons rid0 hcase
        have hnone : lookupPtr s1.ptrs ptr = none := by
          rw [hs1]
          show lookupPtr (erasePtr s.ptrs (getR s.retrievals rid0).blockPtr) ptr = none
          rw [hbp, lookupPtr_erasePtr, if_pos rfl]
        refine ⟨hnone, ?_⟩
        have h2 := requestIter_create s1 p k ptr bv hnone
        rw [h2]
        show some _ = some s1.nextCh
        rw [requestTail_snd]
  refine ⟨?_, key, ?_⟩
  · intro nw ops p rid hl
    exact ((invQ_runOps nw ops).2.2.2.1 p rid hl).2
  · intro s p k ptr bv s1 hd hcons hit
    obtain ⟨hnone, hsnd⟩ := key s p k ptr bv s1 hcons hit
    have hit2 : requestIter s1 p k ptr bv =
        ((requestIter s1 p k ptr bv).1, some s1.nextCh) := by
      have h1 : requestIter s1 p k ptr bv =
          ((requestIter s1 p k ptr bv).1, (requestIter s1 p k ptr bv).2) := rfl
      rw [h1, hsnd]
    exact Request_open_retry s p k ptr bv hd s1 _ s1.nextCh hit hit2

theorem request_retry_terminates_witness :
    requestIter (runOps 1 [.req 1 0 7 0, .cancelAll 0]) 1 0 7 1 =
      ((requestIter (runOps 1 [.req 1 0 7 0, .cancelAll 0]) 1 0 7 1).1, none) ∧
    lookupPtr (requestIter
      (runOps 1 [.req 1 0 7 0, .cancelAll 0]) 1 0 7 1).1.ptrs 7 = none ∧
    (requestIter (requestIter
      (runOps 1 [.req 1 0 7 0, .cancelAll 0]) 1 0 7 1).1 1 0 7 1).2 =
      some (requestIter (runOps 1 [.req 1 0 7 0, .cancelAll 0]) 1 0 7 1).1.nextCh :=
  ⟨by decide,
   (request_retry_terminates.2.1 (runOps 1 [.req 1 0 7 0, .cancelAll 0]) 1 0 7 1
     (requestIter (runOps 1 [.req 1 0 7 0, .cancelAll 0]) 1 0 7 1).1
     (fun rid hl =>
       ((invQ_runOps 1 [.req 1 0 7 0, .cancelAll 0]).2.2.2.1 7 rid hl).2)
     (by decide)).1,
   (request_retry_terminates.2.1 (runOps 1 [.req 1 0 7 0, .cancelAll 0]) 1 0 7 1
     (requestIter (runOps 1 [.req 1 0 7 0, .cancelAll 0]) 1 0 7 1).1
     (fun rid hl =>
       ((invQ_runOps 1 [.req 1 0 7 0, .cancelAll 0]).2.2.2.1 7 rid hl).2)
     (by decide)).2⟩

/-- C6: a drain attempt (a `notifyWorker` goroutine observing the closed
intake signal) pops the heap root, if any, and finalizes it immediately
with the shutdown error `io.EOF`: its waiters are all notified with the
error, its registry entry is deleted, its cancel function is called, and
the heap shrinks by one; with nothing to pop the attempt is only consumed.
In the non-shutdown branch a matching attempt pops and delivers to an
available worker slot — delivering `none` exactly when a race already
emptied the heap, and the popped root otherwise. In every reachable state
the outstanding attempts cover the whole heap, so no heap entry is left
pending indefinitely. -/
theorem drain_on_shutdown :
    (∀ s : brqState, InvQ s → s.doneClosed = true → 0 < s.attempts →
      s.arr.length ≠ 0 →
      ∃ hs', heapPop ⟨s.retrievals, s.arr⟩ = (hs', some (s.arr.getD 0 0)) ∧
        attemptDrain s = FinalizeRequest { s with
          retrievals := hs'.st
          arr := hs'.arr
          attempts := s.attempts - 1 } (s.arr.getD 0 0) none ioEOF ∧
        (attemptDrain s).events = s.events ++
          finalizeEvents (getR s.retrievals (s.arr.getD 0 0)).requests none ioEOF ∧
        lookupPtr (attemptDrain s).ptrs
          (getR s.retrievals (s.arr.getD 0 0)).blockPtr = none ∧
        (getR (attemptDrain s).retrievals (s.arr.getD 0 0)).cancelCalled = true ∧
        (attemptDrain s).arr.length = s.arr.length - 1) ∧
    (∀ s : brqState, s.doneClosed = true → 0 < s.attempts → s.arr.length = 0 →
      attemptDrain s = { s with attempts := s.attempts - 1 }) ∧
    (∀ s : brqState, 0 < s.workerSlots → 0 < s.attempts →
      attemptMatch s = { s with
        attempts := s.attempts - 1
        workerSlots := s.workerSlots - 1
        retrievals := (heapPop ⟨s.retrievals, s.arr⟩).1.st
        arr := (heapPop ⟨s.retrievals, s.arr⟩).1.arr
        claimed := s.claimed ++ (heapPop ⟨s.retrievals, s.arr⟩).2.toList
        events := s.events ++ [.deliver (heapPop ⟨s.retrievals, s.arr⟩).2] }) ∧
    (∀ s : brqState, s.arr.length = 0 →
      (heapPop ⟨s.retrievals, s.arr⟩).2 = none) ∧
    (∀ s : brqState, InvQ s → s.arr.length ≠ 0 →
      (heapPop ⟨s.retrievals, s.arr⟩).2 = some (s.arr.getD 0 0)) ∧
    (∀ (nw : Nat) (ops : List Op),
      (runOps nw ops).arr.length ≤ (runOps nw ops).attempts) := by
  refine ⟨?_, fun s hd ha he => attemptDrain_empty s hd ha he,
    fun s hw ha => attemptMatch_eq s hw ha, ?_, ?_,
    fun nw ops => attempts_ge_runOps nw ops⟩
  · intro s hinv hd ha hne
    obtain ⟨hs', hpop, heq⟩ := attemptDrain_pop s hd ha hinv hne
    obtain ⟨hs'', hpop2, hlenA, hlenS, hmem, hacc', hv', hnoidx, hidxr, hidxo⟩ :=
      heapPop_spec ⟨s.retrievals, s.arr⟩ hinv.2.1 hinv.1 hne
    rw [hpop] at hpop2
    have hseq : hs' = hs'' := congrArg Prod.fst hpop2
    subst hseq
    have hrmem : s.arr.getD 0 0 ∈ s.arr :=
      (mem_iff_getD s.arr _).mpr ⟨0, Nat.pos_of_ne_zero hne, rfl⟩
    have hrlt : s.arr.getD 0 0 < s.retrievals.length := hinv.1 _ hrmem
    have hrlt' : s.arr.getD 0 0 < hs'.st.length := by
      have h1 : hs'.st.length = s.retrievals.length := hlenS
      omega
    have hfields := fields_of_noIdx_eq (hnoidx (s.arr.getD 0 0))
    refine ⟨hs', hpop, heq, ?_, ?_, ?_, ?_⟩
    · rw [heq]
      show s.events ++
          finalizeEvents (getR hs'.st (s.arr.getD 0 0)).requests none ioEOF = _
      rw [hfields.2.2.2.2.1]
    · rw [heq]
      show lookupPtr (erasePtr s.ptrs (getR hs'.st (s.arr.getD 0 0)).blockPtr)
        (getR s.retrievals (s.arr.getD 0 0)).blockPtr = none
      rw [hfields.1, lookupPtr_erasePtr, if_pos rfl]
    · rw [heq]
      show (getR (hs'.st.set (s.arr.getD 0 0)
        { getR hs'.st (s.arr.getD 0 0) with cancelCalled := true })
        (s.arr.getD 0 0)).cancelCalled = true
      rw [getR_set, if_pos ⟨rfl, hrlt'⟩]
    · rw [heq]
      show hs'.arr.length = s.arr.length - 1
      exact hlenA
  · intro s he
    have hpop : heapPop ⟨s.retrievals, s.arr⟩ = (⟨s.retrievals, s.arr⟩, none) := by
      unfold heapPop
      rw [if_pos he]
    rw [hpop]
  · intro s hinv hne
    obtain ⟨hs', hpop, hrest⟩ := heapPop_spec ⟨s.retrievals, s.arr⟩ hinv.2.1 hinv.1 hne
    rw [hpop]

theorem drain_on_shutdown_witness :
    (runOps 1 [.req 5 0 7 0, .shutdown]).doneClosed = true ∧
    0 < (runOps 1 [.req 5 0 7 0, .shutdown]).attempts ∧
    (runOps 1 [.req 5 0 7 0, .shutdown]).arr.length ≠ 0 ∧
    (attemptDrain (runOps 1 [.req 5 0 7 0, .shutdown])).events =
      (runOps 1 [.req 5 0 7 0, .shutdown]).events ++
        finalizeEvents (getR (runOps 1 [.req 5 0 7 0, .shutdown]).retrievals
          ((runOps 1 [.req 5 0 7 0, .shutdown]).arr.getD 0 0)).requests none ioEOF ∧
    lookupPtr (attemptDrain (runOps 1 [.req 5 0 7 0, .shutdown])).ptrs
      (getR (runOps 1 [.req 5 0 7 0, .shutdown]).retrievals
        ((runOps 1 [.req 5 0 7 0, .shutdown]).arr.getD 0 0)).blockPtr = none ∧
    (getR (attemptDrain (runOps 1 [.req 5 0 7 0, .shutdown])).retrievals
      ((runOps 1 [.req 5 0 7 0, .shutdown]).arr.getD 0 0)).cancelCalled = true := by
  obtain ⟨hs', hpop, heq, hev, hreg, hcc, hlen⟩ :=
    drain_on_shutdown.1 (runOps 1 [.req 5 0 7 0, .shutdown])
      (invQ_runOps 1 [.req 5 0 7 0, .shutdown]) (by decide) (by decide) (by decide)
  exact ⟨by decide, by decide, by decide, hev, hreg, hcc⟩

/-- C4: the heap comparator sorts by priority descending with ties broken
by insertion order ascending (FIFO within equal priority); popping a
heap-ordered heap returns the root, which no other heap element sorts
strictly before; a retrieval's insertion order is assigned once, at
creation — no operation rewrites it — where creation stamps the current
counter and bumps it, strictly increasing while the 64-bit counter does
not wrap; and in the concrete scenario with pool size 1 — locator 100
(X) requested at priority 10, then locator 200 (Y) at priority 50, before
any worker claims — the single worker's claim yields retrieval 1, which is
Y, not X. -/
theorem heap_order_fifo :
    (∀ (st : List blockRetrieval) (a b : Nat),
      hless st a b = true ↔
        ((getR st b).priority < (getR st a).priority ∨
         ((getR st a).priority = (getR st b).priority ∧
          (getR st a).insertionOrder < (getR st b).insertionOrder))) ∧
    (∀ s : brqState, InvQ s → heapProp ⟨s.retrievals, s.arr⟩ →
      s.arr.length ≠ 0 →
      ∃ hs', heapPop ⟨s.retrievals, s.arr⟩ = (hs', some (s.arr.getD 0 0)) ∧
        ∀ x ∈ s.arr, hless s.retrievals x (s.arr.getD 0 0) = false) ∧
    (∀ (s : brqState) (op : Op) (rid : Nat), InvQ s →
      rid < s.retrievals.length →
      (getR (applyOp s op).retrievals rid).insertionOrder =
        (getR s.retrievals rid).insertionOrder) ∧
    (∀ (s : brqState) (p : Int) (k ptr bv : Nat),
      lookupPtr s.ptrs ptr = none → InvQ s →
      (getR (requestIter s p k ptr bv).1.retrievals
        s.retrievals.length).insertionOrder = s.insertionCount ∧
      (requestIter s p k ptr bv).1.insertionCount =
        (s.insertionCount + 1) % 2 ^ 64 ∧
      (s.insertionCount + 1 < 2 ^ 64 →
        (requestIter s p k ptr bv).1.insertionCount = s.insertionCount + 1)) ∧
    ((runOps 1 [.req 10 0 100 0, .req 50 0 200 1, .workerArrive,
        .matchWorker]).claimed = [1] ∧
     (getR (runOps 1 [.req 10 0 100 0, .req 50 0 200 1, .workerArrive,
        .matchWorker]).retrievals 1).blockPtr = 200 ∧
     (getR (runOps 1 [.req 10 0 100 0, .req 50 0 200 1, .workerArrive,
        .matchWorker]).retrievals 1).priority = 50 ∧
     (getR (runOps 1 [.req 10 0 100 0, .req 50 0 200 1, .workerArrive,
        .matchWorker]).retrievals 0).blockPtr = 100) := by
  refine ⟨fun st a b => hless_true_iff st a b, ?_,
    fun s op rid hinv hr => insertionOrder_applyOp s op hinv rid hr, ?_, by decide⟩
  · intro s hinv hp hne
    exact heapPop_max ⟨s.retrievals, s.arr⟩ hinv.2.1 hinv.1 hp hne
  · intro s p k ptr bv hnone hinv
    obtain ⟨h2, hptrs, hic, hdone, hatt, hclaimed, hevents, hws, hnw, hnc, hlen,
      halen, hmem, hv2, hacc2, hnoidx, hidx, hbp, hkmd, hcc, hcanc, hreq, hpri,
      hio, hm, hnn⟩ := requestIter_create_spec s p k ptr bv hnone hinv.1 hinv.2.1
    refine ⟨hio, hic, ?_⟩
    intro hw
    rw [hic]
    exact Nat.mod_eq_of_lt hw

theorem heap_order_fifo_witness :
    heapProp ⟨(runOps 1 [.req 10 0 100 0, .req 50 0 200 1]).retrievals,
      (runOps 1 [.req 10 0 100 0, .req 50 0 200 1]).arr⟩ ∧
    (runOps 1 [.req 10 0 100 0, .req 50 0 200 1]).arr.getD 0 0 = 1 ∧
    ∀ x ∈ (runOps 1 [.req 10 0 100 0, .req 50 0 200 1]).arr,
      hless (runOps 1 [.req 10 0 100 0, .req 50 0 200 1]).retrievals x
        ((runOps 1 [.req 10 0 100 0, .req 50 0 200 1]).arr.getD 0 0) = false := by
  refine ⟨?_, by decide, ?_⟩
  · unfold heapProp
    decide
  · obtain ⟨hs', hpop, hmax⟩ :=
      heap_order_fifo.2.1 (runOps 1 [.req 10 0 100 0, .req 50 0 200 1])
        (invQ_runOps 1 [.req 10 0 100 0, .req 50 0 200 1])
        (by unfold heapProp; decide) (by decide)
    exact hmax

end KBFS
